import Mathlib

/-
  Verification development for the micrawl scraping service.

  The definitions below are shallow embeddings of the TypeScript source:
  pure functions are translated to Lean functions, JavaScript strings are
  modelled as `String` / `List Char`, optional values as `Option`, thrown
  exceptions as `Except String`, and the I/O environment observed by a
  driver run (fetch responses, browser navigation results, markdown
  conversion outcomes) is passed in explicitly as an environment record.
  Effects that the claims talk about (browser launches, network fetches)
  are collected in an explicit effect list.
-/

namespace Micrawl

/-! ## Character and string helpers (JS `toLowerCase`, substring tests) -/

/-- ASCII lower-casing of one character, as JS `String.prototype.toLowerCase`
behaves on ASCII input (the only inputs the filters compare against). -/
def toLowerChar (c : Char) : Char :=
  if 'A' ≤ c ∧ c ≤ 'Z' then Char.ofNat (c.toNat + 32) else c

/-- Lower-case a character list. -/
def lowerList (l : List Char) : List Char := l.map toLowerChar

/-- Decidable substring test on character lists (`hay` contains `pat`). -/
def containsSub : List Char → List Char → Bool
  | [], pat => pat.isEmpty
  | c :: t, pat => pat.isPrefixOf (c :: t) || containsSub t pat

/-- Case-insensitive substring test, the embedding of a JS regex
`/lit/i.test(s)` for a literal pattern `lit`. -/
def containsCI (hay pat : String) : Bool :=
  containsSub (lowerList hay.toList) (lowerList pat.toList)

/-- The single-quote character, used by the HTML attribute patterns. -/
def squote : Char := Char.ofNat 39

/-! ## Resource filter (src scraper-filters.ts) -/

/-- The fixed extension denylist `DISALLOWED_FILE_EXTENSIONS`. -/
def DISALLOWED_FILE_EXTENSIONS : List (List Char) :=
  [".pdf", ".zip", ".rar", ".7z", ".tar", ".gz", ".bz2", ".mp4", ".mp3",
   ".avi", ".mov", ".mkv", ".flac", ".wav", ".woff", ".woff2", ".ttf",
   ".otf"].map String.toList

/-- The suffix of `p` starting at the last dot (`pathname.slice(dotIndex)`
for `dotIndex = pathname.lastIndexOf "."`), or `none` when no dot occurs. -/
def lastDotSuffix (p : List Char) : Option (List Char) :=
  if p.contains '.' then
    some ('.' :: (p.reverse.takeWhile (fun c => c ≠ '.')).reverse)
  else none

/-- `isBlockedExtension` from scraper-filters.ts, taking the URL pathname:
lower-case the final `.ext` segment and test denylist membership. -/
def isBlockedExtensionPath (pathname : List Char) : Bool :=
  match lastDotSuffix pathname with
  | none => false
  | some ext => DISALLOWED_FILE_EXTENSIONS.contains (lowerList ext)

/-! ## URL model (WHATWG `URL` as used by `canonicalizeUrl`)

The canonicalizer manipulates a parsed URL through four operations: read
`protocol`, clear `hash`, rewrite `pathname`, and sort `searchParams`.  We
model the parsed URL by its five components for the http(s) fragment of the
URL grammar.  Simplifications relative to the full WHATWG parser, none of
which the claims depend on: the authority (userinfo/host/port) is kept as
an opaque token (no host lower-casing or punycoding), percent-encoding is
not normalized, and path-segment dot-normalization is not applied. -/

/-- A parsed URL: `scheme://authority pathname ?search #fragment`. -/
structure UrlParts where
  scheme : List Char
  authority : List Char
  pathname : List Char
  search : Option (List Char)
  fragment : Option (List Char)
deriving DecidableEq, Repr

/-- Split `l` at the first character satisfying `p`:
`(l.takeWhile (not ∘ p), l.dropWhile (not ∘ p))`. -/
def spanNot (p : Char → Bool) (l : List Char) : List Char × List Char :=
  (l.takeWhile (fun c => !(p c)), l.dropWhile (fun c => !(p c)))

/-- Parse a URL string into its components (`new URL(raw)`), for the
`scheme://...` shape that http(s) URLs take.  The scheme is lower-cased as
the WHATWG parser does; an empty scheme or empty authority fails; a missing
path serializes as `/` for special schemes, so it parses to `/` here. -/
def parseUrl (l : List Char) : Option UrlParts :=
  let s := spanNot (fun c => c = ':') l
  if s.2.take 3 = [':', '/', '/'] then
    if s.1 = [] then none
    else
      let a := spanNot (fun c => c = '/' || c = '?' || c = '#') (s.2.drop 3)
      if a.1 = [] then none
      else
        let pth := spanNot (fun c => c = '?' || c = '#') a.2
        let pathname := if pth.1 = [] then ['/'] else pth.1
        if pth.2 = [] then
          some ⟨lowerList s.1, a.1, pathname, none, none⟩
        else if pth.2.head? = some '?' then
          let q := spanNot (fun c => c = '#') pth.2.tail
          if q.2.head? = some '#' then
            some ⟨lowerList s.1, a.1, pathname, some q.1, some q.2.tail⟩
          else some ⟨lowerList s.1, a.1, pathname, some q.1, none⟩
        else if pth.2.head? = some '#' then
          some ⟨lowerList s.1, a.1, pathname, none, some pth.2.tail⟩
        else some ⟨lowerList s.1, a.1, pathname, none, none⟩
  else none

/-- Serialize a `UrlParts` back to a string (`url.toString()`). -/
def serializeUrl (u : UrlParts) : List Char :=
  u.scheme ++ ':' :: '/' :: '/' :: u.authority ++ u.pathname ++
    (match u.search with
     | none => []
     | some q => '?' :: q) ++
    (match u.fragment with
     | none => []
     | some f => '#' :: f)

/-- `isBlockedExtension` applied to a parsed URL (the drivers call it with
the `URL` object and it reads `url.pathname`). -/
def isBlockedExtension (u : UrlParts) : Bool :=
  isBlockedExtensionPath u.pathname

/-! ## Query-parameter model (`URLSearchParams` as used by the canonicalizer) -/

/-- Split a character list on a separator character; `"a&&b"` gives the
three segments `a`, empty, `b`. -/
def splitOnChar (sep : Char) : List Char → List (List Char)
  | [] => [[]]
  | c :: t =>
    if c = sep then [] :: splitOnChar sep t
    else (c :: (splitOnChar sep t).headD []) :: (splitOnChar sep t).tail

/-- One `&`-separated query segment as a key-value pair, as
`URLSearchParams` reads it: an empty segment is skipped, a segment is
split at its first `=` (a missing `=` yields an empty value).
Percent/plus decoding is not modelled; keys are compared as written. -/
def pairOfSeg (seg : List Char) : Option (List Char × List Char) :=
  if seg = [] then none
  else
    let kv := spanNot (fun c => c = '=') seg
    some (kv.1, if kv.2.head? = some '=' then kv.2.tail else [])

/-- Parse a raw query by splitting on `&` and handling each segment. -/
def parsePairs (q : List Char) : List (List Char × List Char) :=
  (splitOnChar '&' q).filterMap pairOfSeg

/-- Serialize key-value pairs back to a query (`URLSearchParams.toString`),
always writing `key=value` joined by `&`. -/
def serializePairs : List (List Char × List Char) → List Char
  | [] => []
  | [(k, v)] => k ++ '=' :: v
  | (k, v) :: rest => k ++ '=' :: v ++ '&' :: serializePairs rest

/-- Lexicographic comparison of keys by code point, the order
`URLSearchParams.sort` uses. -/
def keyLe : List Char → List Char → Bool
  | [], _ => true
  | _ :: _, [] => false
  | x :: xs, y :: ys => x.toNat < y.toNat || (x = y && keyLe xs ys)

/-- Insert a pair into a key-sorted list, before the first strictly
greater key and after equal keys, so the overall sort is stable. -/
def insertPair (p : List Char × List Char) :
    List (List Char × List Char) → List (List Char × List Char)
  | [] => [p]
  | q :: t => if keyLe p.1 q.1 then p :: q :: t
              else q :: insertPair p t

/-- Stable sort of the pairs by key (`searchParams.sort()`). -/
def sortPairs (ps : List (List Char × List Char)) :
    List (List Char × List Char) :=
  ps.foldr insertPair []

/-! ## `canonicalizeUrl` (packages/core url normalization) -/

/-- `UrlNormalizationIssue`. -/
inductive UrlNormalizationIssue where
  | invalid_url
  | unsupported_protocol
  | duplicate_url
deriving DecidableEq, Repr

/-- `SUPPORTED_PROTOCOLS` (protocol strings include the trailing colon). -/
def SUPPORTED_PROTOCOLS : List (List Char) :=
  ["http:".toList, "https:".toList]

/-- `trimPathname`: keep `/` as is, otherwise strip trailing slashes,
collapsing an all-slash path back to `/`. -/
def trimPathname (p : List Char) : List Char :=
  if p = ['/'] then p
  else
    let trimmed := (p.reverse.dropWhile (fun c => c = '/')).reverse
    if trimmed = [] then ['/'] else trimmed

/-- The `searchParams` step of `canonicalizeUrl`: when the URL has query
parameters, sort them and write the serialized form back to `search`
(an empty serialization clears the query, mirroring `parsed.search = ""`). -/
def sortSearch (u : UrlParts) : UrlParts :=
  match u.search with
  | none => u
  | some q =>
    let ps := parsePairs q
    if 0 < ps.length then
      let sq := serializePairs (sortPairs ps)
      { u with search := if sq = [] then none else some sq }
    else u

/-- The three mutation steps of `canonicalizeUrl` on the parsed URL:
`parsed.hash = ""`, `parsed.pathname = trimPathname(parsed.pathname)`, and
the query-parameter sort. -/
def canonParts (u : UrlParts) : UrlParts :=
  sortSearch { u with
    fragment := none,
    pathname := trimPathname u.pathname }

/-- `canonicalizeUrl` (part of the URL canonicalizer): parse, validate the
protocol, strip the fragment, trim the pathname, sort query parameters,
and serialize. -/
def canonicalizeUrl (rawUrl : String) : Except UrlNormalizationIssue String :=
  match parseUrl rawUrl.toList with
  | none => .error .invalid_url
  | some u =>
    if SUPPORTED_PROTOCOLS.contains (u.scheme ++ [':']) then
      .ok ⟨serializeUrl (canonParts u)⟩
    else .error .unsupported_protocol

/-! ## Scrape job data model (types/scrape.ts) -/

/-- `ContentFormat`. -/
inductive ContentFormat where
  | html
  | markdown
deriving DecidableEq, Repr

/-- `ScrapeDriverName`. -/
inductive ScrapeDriverName where
  | playwright
  | http
  | auto
deriving DecidableEq, Repr

/-- A driver name other than `auto` (`Exclude<ScrapeDriverName, "auto">`). -/
inductive ConcreteDriverName where
  | playwright
  | http
deriving DecidableEq, Repr

/-- `LoadStrategy`. -/
inductive LoadStrategy where
  | loadEvent
  | waitForSelector
deriving DecidableEq, Repr

/-- `ScrapeJob` (types/scrape.ts).  Optional string fields are modelled as
`Option String`; the request schema validates them to be non-empty, so JS
truthiness on them coincides with `Option.isSome`.  Fields not consulted by
any embedded function (proxy, headers, basic auth are consulted only by
`buildExtraHeaders`, which no claim mentions) are kept for shape fidelity. -/
structure ScrapeJob where
  targetUrl : String
  waitForSelector : Option String := none
  captureTextOnly : Bool
  timeoutMs : Nat
  locale : Option String := none
  timezoneId : Option String := none
  viewport : Option (Nat × Nat) := none
  userAgent : Option String := none
  outputFormats : Option (List ContentFormat) := none
  driver : Option ScrapeDriverName := none
  readability : Option Bool := none
deriving DecidableEq, Repr

/-! ## Driver selection (core/extraction/dispatcher.ts) -/

/-- `chooseAutoDriver`: a wait-for-selector hint forces playwright; otherwise
a job is DOM-sensitive when it has a custom viewport, locale or timezone or
is not text-only, and DOM-sensitive jobs go to playwright, the rest to http. -/
def chooseAutoDriver (job : ScrapeJob) : ConcreteDriverName :=
  if job.waitForSelector.isSome then .playwright
  else
    let domSensitive :=
      job.viewport.isSome || job.locale.isSome || job.timezoneId.isSome ||
        !job.captureTextOnly
    if !domSensitive then .http else .playwright

/-- The env-schema default for `SCRAPER_DEFAULT_DRIVER`
(config/env.ts: `z.enum(["playwright", "http", "auto"]).catch("playwright")`). -/
def SCRAPER_DEFAULT_DRIVER_default : ScrapeDriverName := .playwright

/-- `resolveDriverName`: the explicit job driver, falling back to the
configured default, with `auto` resolved through `chooseAutoDriver`. -/
def resolveDriverName (defaultDriver : ScrapeDriverName) (job : ScrapeJob) :
    ConcreteDriverName :=
  match job.driver.getD defaultDriver with
  | .auto => chooseAutoDriver job
  | .playwright => .playwright
  | .http => .http

/-! ## Batch executor / streaming protocol (routes.ts `registerRoutes`)

The `/scrape` handler iterates the canonicalized jobs strictly in order.
For the stream model a job is abstracted by what the executor observes of
it: the progress phases the driver reports through the phase callback, and
how the `runScrapeJob` call ends — a success envelope, a handled failure
envelope, or a thrown exception ("error").  The counters and records are
reproduced exactly; counter values are `Int` as JS numbers are exact on
this range. -/

/-- How one `runScrapeJob` call ends, as the executor loop observes it. -/
inductive JobOutcome where
  | success
  | fail
  | error
deriving DecidableEq, Repr

/-- A phase a driver reports through its phase callback mid-job (the
executor itself emits `queued`; `completed` is filtered out). -/
inductive MidPhase where
  | navigating
  | capturing
deriving DecidableEq, Repr

/-- One job as the stream model sees it. -/
structure BatchJob where
  midPhases : List MidPhase
  outcome : JobOutcome
deriving DecidableEq, Repr

/-- The progress phase carried by a progress record. -/
inductive ProgressPhase where
  | queued
  | navigating
  | capturing
deriving DecidableEq, Repr

/-- A `progress` counters object. -/
structure Progress where
  completed : Int
  remaining : Int
  succeeded : Int
  failed : Int
deriving DecidableEq, Repr

/-- One NDJSON record of the stream: a progress record, a per-job terminal
record (`success` / `fail` / `error`, phase `completed`), or the batch
summary record. -/
inductive StreamRecord where
  | progress (index : Nat) (phase : ProgressPhase) (p : Progress)
  | terminal (index : Nat) (outcome : JobOutcome) (p : Progress)
  | summary (index : Nat) (p : Progress) (succeeded failed : Int)
deriving DecidableEq, Repr

/-- The progress counters attached to a record. -/
def StreamRecord.prog : StreamRecord → Progress
  | .progress _ _ p => p
  | .terminal _ _ p => p
  | .summary _ p _ _ => p

/-- Whether a record is the batch summary. -/
def StreamRecord.isSummary : StreamRecord → Bool
  | .summary _ _ _ _ => true
  | _ => false

/-- `MidPhase` as a `ProgressPhase`. -/
def MidPhase.toProgressPhase : MidPhase → ProgressPhase
  | .navigating => .navigating
  | .capturing => .capturing

/-- The streaming loop of the `/scrape` handler.  `done` counts completed
jobs (the loop's `sequence - 1`), `s` and `f` are the running succeeded /
failed counters (the source keeps them both in `summary` and in
`succeededCount` / `failedCount`, incremented in lockstep).  Each job
emits one `queued` progress record and one progress record per reported
phase, all with pre-job counters, then one terminal record with post-
increment counters; a thrown driver call is caught and becomes a terminal
`error` record, never ending the loop.  After the last job a single
summary record with sequence index `total + 1` closes the stream. -/
def runBatchStream (total : Nat) : Nat → Int → Int → List BatchJob →
    List StreamRecord
  | _done, s, f, [] =>
    [.summary (total + 1) ⟨(total : Int), 0, s, f⟩ s f]
  | done, s, f, j :: rest =>
    let seq := done + 1
    let pre : Progress := ⟨(done : Int), (total : Int) - (done : Int), s, f⟩
    let post (s2 f2 : Int) : Progress :=
      ⟨(seq : Int), (total : Int) - (seq : Int), s2, f2⟩
    .progress seq .queued pre ::
      (j.midPhases.map (fun ph => .progress seq ph.toProgressPhase pre) ++
        match j.outcome with
        | .success =>
          .terminal seq .success (post (s + 1) f) ::
            runBatchStream total seq (s + 1) f rest
        | .fail =>
          .terminal seq .fail (post s (f + 1)) ::
            runBatchStream total seq s (f + 1) rest
        | .error =>
          .terminal seq .error (post s (f + 1)) ::
            runBatchStream total seq s (f + 1) rest)

/-- The full record stream for a batch of jobs. -/
def executeBatch (jobs : List BatchJob) : List StreamRecord :=
  runBatchStream jobs.length 0 0 0 jobs

/-- The `(sequence index, outcome)` of every terminal record, in stream
order. -/
def terminalIndexOutcomes (rs : List StreamRecord) : List (Nat × JobOutcome) :=
  rs.filterMap fun r =>
    match r with
    | .terminal i o _ => some (i, o)
    | _ => none

/-! ## Error-message mapping (playwright.ts `mapErrorToPageError`) -/

/-- `mapErrorToPageError`: an ordered table of case-insensitive pattern
tests over the raw error text; unmatched messages pass through verbatim. -/
def mapErrorToPageError (message : String) : String :=
  if containsCI message "timeout" then
    "Timed out while loading the page"
  else if containsCI message "net::ERR_NAME_NOT_RESOLVED" then
    "DNS resolution failed for the requested host"
  else if containsCI message "net::ERR_CONNECTION" then
    "Connection error encountered while fetching the page"
  else
    message

/-! ## HTML text scanning (the regexes of http.ts)

The http driver parses HTML with JS regexes.  Each regex used by the
claims is embedded as a scanner with the same semantics on its pattern
shape: leftmost match, greedy character classes with backtracking, and
case-insensitive literals. -/

/-- Strip `pat` as a case-insensitive prefix of `l`, returning the rest. -/
def stripPrefixCI : List Char → List Char → Option (List Char)
  | [], l => some l
  | _ :: _, [] => none
  | p :: ps, c :: cs =>
    if toLowerChar c = toLowerChar p then stripPrefixCI ps cs else none

/-- Greedy `[class]*` followed by a continuation `k`: consume as many
characters satisfying `ok` as possible, backtracking to shorter gaps when
the continuation fails (the backtracking of a greedy JS quantifier). -/
def gapMatch {α : Type} (ok : Char → Bool) (k : List Char → Option α) :
    List Char → Option α
  | [] => k []
  | c :: t =>
    if ok c then
      match gapMatch ok k t with
      | some r => some r
      | none => k (c :: t)
    else k (c :: t)

/-- Match the character class `["']`: one double or single quote. -/
def matchQuote : List Char → Option (List Char)
  | c :: t => if c = '"' || c = squote then some t else none
  | [] => none

/-- Greedy `([^"']*)` capture followed by a quote: the capture runs to the
first quote character, which is then consumed. -/
def captureContent (l : List Char) : Option (List Char × List Char) :=
  match l.dropWhile (fun c => !(c = '"' || c = squote)) with
  | _ :: t => some (l.takeWhile (fun c => !(c = '"' || c = squote)), t)
  | [] => none

/-- Finish a tag pattern: `[^>]*` then a literal `>`. -/
def closeTag {α : Type} (r : α) : List Char → Option α :=
  gapMatch (fun c => !(c = '>'))
    (fun l =>
      match l with
      | '>' :: _ => some r
      | _ => none)

/-- Match, at the current position, the pattern
`tagLit [^>]+ attrLit ["'] valueLit ["'] [^>]* keyLit ["'] ([^"']*) ["'] [^>]* >`
(the common shape of the meta/link regexes in http.ts) and return the
capture. -/
def tagAttrContentAt (tagLit attrLit valueLit keyLit : List Char)
    (l : List Char) : Option (List Char) :=
  (stripPrefixCI tagLit l).bind fun l1 =>
    match l1 with
    | [] => none
    | c :: t =>
      if c = '>' then none
      else
        gapMatch (fun c2 => !(c2 = '>'))
          (fun l2 =>
            (stripPrefixCI attrLit l2).bind fun l3 =>
            (matchQuote l3).bind fun l4 =>
            (stripPrefixCI valueLit l4).bind fun l5 =>
            (matchQuote l5).bind fun l6 =>
            gapMatch (fun c2 => !(c2 = '>'))
              (fun l7 =>
                (stripPrefixCI keyLit l7).bind fun l8 =>
                (matchQuote l8).bind fun l9 =>
                (captureContent l9).bind fun cap =>
                closeTag cap.1 cap.2)
              l6)
          t

/-- Leftmost-match scan: try the position matcher at every start position
in order, as `String.prototype.match` without the global flag does. -/
def scanFind {α : Type} (f : List Char → Option α) : List Char → Option α
  | [] => f []
  | c :: t =>
    match f (c :: t) with
    | some r => some r
    | none => scanFind f t

/-- The `<meta[^>]+name=["']VALUE["'][^>]*content=["']([^"']*)["'][^>]*>`
regex of `extractMetadata`, for a given attribute value. -/
def metaNameContentFind (value : List Char) (html : List Char) :
    Option (List Char) :=
  scanFind (tagAttrContentAt "<meta".toList "name=".toList value
    "content=".toList) html

/-- The same tag shape with a `property=` attribute, used to express the
spec's `og:description` fallback. -/
def metaPropContentFind (value : List Char) (html : List Char) :
    Option (List Char) :=
  scanFind (tagAttrContentAt "<meta".toList "property=".toList value
    "content=".toList) html

/-! ## Entity decoding, trimming, text sanitizing (http.ts helpers) -/

/-- Length accounting for `stripPrefixCI`. -/
theorem stripPrefixCI_length :
    ∀ {p l r : List Char}, stripPrefixCI p l = some r →
      r.length + p.length = l.length := by
  intro p
  induction p with
  | nil =>
    intro l r h
    simp [stripPrefixCI] at h
    simp [h]
  | cons x xs ih =>
    intro l r h
    cases l with
    | nil => simp [stripPrefixCI] at h
    | cons c cs =>
      simp only [stripPrefixCI] at h
      split at h
      · have := ih h
        simpa [Nat.add_assoc, Nat.add_comm, Nat.add_left_comm] using
          congrArg (fun n => n + 1) this
      · exact absurd h (by simp)

/-- Replace every non-overlapping case-insensitive occurrence of `pat` by
`repl`, scanning left to right (JS `replace` with the `gi` flags on a
literal pattern).  An empty pattern leaves the text unchanged. -/
def replaceAllCI (pat repl : List Char) (l : List Char) : List Char :=
  match l with
  | [] => []
  | c :: t =>
    if hp : pat = [] then c :: t
    else
      match h : stripPrefixCI pat (c :: t) with
      | some rest => repl ++ replaceAllCI pat repl rest
      | none => c :: replaceAllCI pat repl t
termination_by l.length
decreasing_by
  · have hlen := stripPrefixCI_length h
    have hpos : 0 < pat.length := List.length_pos.mpr hp
    simp only [List.length_cons] at hlen ⊢
    omega
  · simp

/-- `decodeEntities`: the five sequential entity replacements of http.ts
(`&amp; &lt; &gt; &quot; &#39;`, case-insensitive). -/
def decodeEntities (value : String) : String :=
  ⟨replaceAllCI ("&#39".toList ++ [';']) [squote]
    (replaceAllCI "&quot;".toList ['"']
      (replaceAllCI "&gt;".toList ['>']
        (replaceAllCI "&lt;".toList ['<']
          (replaceAllCI "&amp;".toList ['&'] value.toList))))⟩

/-- The whitespace characters JS `trim` / `\s` recognize (ASCII subset;
unicode spaces are not modelled). -/
def isJsWs (c : Char) : Bool :=
  c = ' ' || c = '\t' || c = '\n' || c = '\r' || c = '\x0b' || c = '\x0c'

/-- `String.prototype.trim`. -/
def trimChars (l : List Char) : List Char :=
  ((l.dropWhile isJsWs).reverse.dropWhile isJsWs).reverse

/-- `extractDescription`: the description field of `extractMetadata` in
http.ts — the first `name="description"` meta-content match, trimmed and
entity-decoded; `none` when the regex does not match.  (The other
`extractMetadata` fields — keywords, canonical link, same-origin links —
are not consulted by any claim and are not embedded.) -/
def extractDescription (html : String) : Option String :=
  (metaNameContentFind "description".toList html.toList).map
    fun cap => decodeEntities ⟨trimChars cap⟩

/-- Modelled from the spec: the metadata extraction the spec describes for
the lightweight-fetch driver, which is to "prefer `name=description`, fall
back to `og:description`".  This definition follows the spec's words and
exists only to be compared against `extractDescription`, which is the
code's behaviour. -/
def specExtractDescription (html : String) : Option String :=
  match metaNameContentFind "description".toList html.toList with
  | some cap => some (decodeEntities ⟨trimChars cap⟩)
  | none =>
    (metaPropContentFind "og:description".toList html.toList).map
      fun cap => decodeEntities ⟨trimChars cap⟩

/-- Split at the first case-insensitive occurrence of `pat`, returning the
text before the occurrence and the text after it. -/
def splitAtSubCI (pat : List Char) : List Char → Option (List Char × List Char)
  | [] => if pat = [] then some ([], []) else none
  | c :: t =>
    match stripPrefixCI pat (c :: t) with
    | some rest => some ([], rest)
    | none => (splitAtSubCI pat t).map fun ab => (c :: ab.1, ab.2)

/-- Length accounting for `splitAtSubCI`. -/
theorem splitAtSubCI_length :
    ∀ {l : List Char} {pat a b : List Char},
      splitAtSubCI pat l = some (a, b) →
      a.length + pat.length + b.length = l.length := by
  intro l
  induction l with
  | nil =>
    intro pat a b h
    simp only [splitAtSubCI] at h
    split at h
    · rename_i hp
      simp only [Option.some.injEq, Prod.mk.injEq] at h
      obtain ⟨ha, hb⟩ := h
      subst hp
      subst ha
      subst hb
      simp
    · simp at h
  | cons c t ih =>
    intro pat a b h
    simp only [splitAtSubCI] at h
    split at h
    · rename_i rest hrest
      have hlen := stripPrefixCI_length hrest
      simp only [Option.some.injEq, Prod.mk.injEq] at h
      obtain ⟨ha, hb⟩ := h
      subst ha
      subst hb
      simp only [List.length_nil, List.length_cons] at hlen ⊢
      omega
    · simp only [Option.map_eq_some'] at h
      obtain ⟨⟨a2, b2⟩, hab, heq⟩ := h
      have := ih hab
      cases heq
      simp only [List.length_cons]
      omega

/-- Remove every non-overlapping `openPat [anything, lazily] closePat`
block, case-insensitively (the `<script.*?</script>` and
`<style.*?</style>` replacements of `sanitizeText`): a lazy body ends at
the first close marker, and an open marker with no close marker after it
matches nothing. -/
def removeBlocksCI (openPat closePat : List Char) (l : List Char) :
    List Char :=
  if hop : openPat = [] then l
  else if hcp : closePat = [] then l
  else
    match h1 : splitAtSubCI openPat l with
    | none => l
    | some (before, afterOpen) =>
      match h2 : splitAtSubCI closePat afterOpen with
      | none => l
      | some (_, afterClose) =>
        before ++ removeBlocksCI openPat closePat afterClose
termination_by l.length
decreasing_by
  have e1 := splitAtSubCI_length h1
  have e2 := splitAtSubCI_length h2
  have p1 : 0 < openPat.length := List.length_pos.mpr hop
  have p2 : 0 < closePat.length := List.length_pos.mpr hcp
  omega

/-- Replace every `<[^>]+>` tag by a single space (`sanitizeText`'s tag
stripping): at a `<`, a non-empty run of non-`>` characters closed by `>`
is a match; otherwise the character is kept and scanning continues.  The
recursion is bounded by a fuel that the wrapper sets to the input length,
which suffices because every step consumes at least one character. -/
def stripTagsAux : Nat → List Char → List Char
  | 0, l => l
  | _ + 1, [] => []
  | fuel + 1, c :: t =>
    if c = '<' then
      match t.dropWhile (fun c2 => !(c2 = '>')) with
      | [] => c :: stripTagsAux fuel t
      | c2 :: rest =>
        if c2 = '>' then
          if t.takeWhile (fun c2 => !(c2 = '>')) = [] then
            c :: stripTagsAux fuel t
          else ' ' :: stripTagsAux fuel rest
        else c :: stripTagsAux fuel t
    else c :: stripTagsAux fuel t

/-- The `<[^>]+>` → `" "` replacement. -/
def stripTags (l : List Char) : List Char :=
  stripTagsAux l.length l

/-- Collapse every whitespace run to a single space (`\s+` → `" "`), with
the same length-fuel scheme. -/
def collapseWsAux : Nat → List Char → List Char
  | 0, l => l
  | _ + 1, [] => []
  | fuel + 1, c :: t =>
    if isJsWs c then ' ' :: collapseWsAux fuel (t.dropWhile isJsWs)
    else c :: collapseWsAux fuel t

/-- The `\s+` → `" "` replacement. -/
def collapseWs (l : List Char) : List Char :=
  collapseWsAux l.length l

/-- `sanitizeText` (http.ts): drop script and style blocks, strip tags to
spaces, collapse whitespace, and trim. -/
def sanitizeText (html : String) : String :=
  ⟨trimChars (collapseWs (stripTags
    (removeBlocksCI "<style".toList "</style>".toList
      (removeBlocksCI "<script".toList "</script>".toList html.toList))))⟩

/-- `extractTitle` (http.ts): the lazy capture of the first
`<title>...</title>` pair, trimmed and entity-decoded. -/
def extractTitle (html : String) : Option String :=
  match splitAtSubCI "<title>".toList html.toList with
  | none => none
  | some (_, afterOpen) =>
    match splitAtSubCI "</title>".toList afterOpen with
    | none => none
    | some (cap, _) => some (decodeEntities ⟨trimChars cap⟩)

/-! ## Driver result model (types/scrape.ts result shapes)

Timestamps and durations (`startedAt` / `finishedAt` / `durationMs`) are
wall-clock readings and are omitted; the envelope fields shared with the
batch position (`jobId`, `index`, `total`) are pass-throughs the executor
model already covers.  Everything else the drivers compute is kept. -/

/-- `ScrapedContent`: one representation of the page; `bytes` is the UTF-8
byte length of the body (`Buffer.byteLength(body, "utf8")`). -/
structure ScrapedContent where
  format : ContentFormat
  contentType : String
  body : String
  bytes : Nat
deriving DecidableEq, Repr

/-- The metadata attached to a page, restricted to the description field
(the only metadata field a claim mentions). -/
structure HtmlMetadata where
  description : Option String
deriving DecidableEq, Repr

/-- `ScrapedPage` (without the wall-clock fields). -/
structure ScrapedPage where
  url : String
  title : Option String
  httpStatusCode : Option Nat
  loadStrategy : LoadStrategy
  contents : List ScrapedContent
  metadata : Option HtmlMetadata
deriving DecidableEq, Repr

/-- `ScrapeErrorDetail` with its `meta.loadStrategy` inlined (the other
`meta` fields are timestamps). -/
structure ScrapeErrorDetail where
  targetUrl : String
  message : String
  rawMessage : String
  httpStatusCode : Option Nat
  loadStrategy : LoadStrategy
deriving DecidableEq, Repr

/-- A driver's returned envelope: `ScrapeSuccess` or `ScrapeFailure`. -/
inductive DriverResult where
  | success (page : ScrapedPage)
  | failure (errors : List ScrapeErrorDetail)
deriving DecidableEq, Repr

/-- The requested output formats:
`job.outputFormats && job.outputFormats.length > 0 ? job.outputFormats : ["html"]`
(both drivers compute this the same way). -/
def requestedFormats (job : ScrapeJob) : List ContentFormat :=
  match job.outputFormats with
  | some l => if l = [] then [.html] else l
  | none => [.html]

/-! ## Lightweight-fetch driver (http.ts) -/

/-- `response.ok` of the Fetch API: status in the 2xx range. -/
def respOk (status : Nat) : Bool :=
  decide (200 ≤ status) && decide (status ≤ 299)

/-- A fetch response as the driver reads it: status, status text, the body
bytes decoded as UTF-8, and the `content-type` header. -/
structure HttpResponse where
  status : Nat
  statusText : String
  body : String
  contentType : Option String
deriving DecidableEq, Repr

deriving instance DecidableEq for Except

/-- The I/O environment of one http-driver run: how the single `fetch`
ends (`.error` = the fetch or body read throws — abort timer, network
error), and what the markdown converter would produce if invoked (`none` =
`H2MParser.process` throws). -/
structure HttpEnv where
  fetchOutcome : Except String HttpResponse
  markdownOutcome : Option String
deriving DecidableEq, Repr

/-- Observable network effects of an http-driver run. -/
inductive HttpEffect where
  | fetch
deriving DecidableEq, Repr

/-- `buildHttpFailure` (http.ts): an empty raw message falls back to
"HTTP scrape failed"; the load strategy is always `load-event`. -/
def buildHttpFailure (job : ScrapeJob) (httpStatusCode : Option Nat)
    (rawMessage : String) : DriverResult :=
  let message := if rawMessage = "" then "HTTP scrape failed" else rawMessage
  .failure [{ targetUrl := job.targetUrl
              message := message
              rawMessage := if rawMessage = "" then message else rawMessage
              httpStatusCode := httpStatusCode
              loadStrategy := .loadEvent }]

/-- `buildHttpSuccess` (http.ts): text-only capture sanitizes the body but
keeps the `html` format tag; the html entry is included unless markdown
was the only requested format; a produced markdown entry is appended; and
an empty entry list falls back to the html entry unconditionally. -/
def buildHttpSuccess (job : ScrapeJob) (httpStatusCode : Nat) (html : String)
    (markdown : Option String) (description : Option String)
    (contentType : String) : DriverResult :=
  let formats := requestedFormats job
  let htmlBody := if job.captureTextOnly then sanitizeText html else html
  let htmlEntry : ScrapedContent :=
    ⟨.html, contentType, htmlBody, htmlBody.utf8ByteSize⟩
  let entries :=
    (if formats.contains .html || !(formats.contains .markdown) then
      [htmlEntry]
    else []) ++
    (if formats.contains .markdown then
      match markdown with
      | some md => [⟨.markdown, "text/markdown", md, md.utf8ByteSize⟩]
      | none => []
    else [])
  .success
    { url := job.targetUrl
      title := extractTitle html
      httpStatusCode := some httpStatusCode
      loadStrategy := .loadEvent
      contents := if entries = [] then [htmlEntry] else entries
      metadata := some ⟨description⟩ }

/-- `runHttpScrape` (http.ts).  `new URL(job.targetUrl)` sits before the
`try` block, so an unparsable URL escapes as a thrown error (`.error` in
the outer `Except`); a denylisted extension short-circuits into
`buildHttpFailure` with no fetch; otherwise the single fetch runs, a
non-2xx status becomes a failure carrying the status code, and a 2xx
response always becomes a success (markdown conversion failure only drops
the markdown entry).  The effect list records the network fetch. -/
def runHttpScrape (job : ScrapeJob) (env : HttpEnv) :
    Except String DriverResult × List HttpEffect :=
  match parseUrl job.targetUrl.toList with
  | none => (.error "Invalid URL", [])
  | some targetUrl =>
    if isBlockedExtension targetUrl then
      (.ok (buildHttpFailure job none
        ("Disallowed file extension: " ++ (⟨targetUrl.pathname⟩ : String))), [])
    else
      match env.fetchOutcome with
      | .error e => (.ok (buildHttpFailure job none e), [.fetch])
      | .ok resp =>
        if !(respOk resp.status) then
          (.ok (buildHttpFailure job (some resp.status)
            ("HTTP " ++ toString resp.status ++ " " ++ resp.statusText)),
           [.fetch])
        else
          let formats := requestedFormats job
          let markdown :=
            if formats.contains .markdown then env.markdownOutcome else none
          (.ok (buildHttpSuccess job resp.status resp.body markdown
            (extractDescription resp.body)
            (resp.contentType.getD "text/html")), [.fetch])

/-! ## Full-render driver (playwright.ts) -/

/-- The I/O environment of one playwright-driver run: the shared-browser
acquisition outcome, the navigation outcome (`.ok` carries
`response?.status()`, `none` meaning `goto` returned no response), the
response `content-type` header, the selector-wait outcome (consulted only
when the job has a hint; the two readiness waits are non-fatal and their
timeouts do not alter the result), the three possible body sources, the
metadata evaluation (`none` = the in-page evaluation threw), the markdown
conversion outcome, and the page title. -/
structure PwEnv where
  browser : Except String Unit
  navigation : Except String (Option Nat)
  navContentType : Option String
  selectorWait : Except String Unit
  innerText : String
  rawBody : String
  domContent : String
  metadataDescription : Option (Option String)
  markdownOutcome : Option String
  title : String
deriving DecidableEq, Repr

/-- Observable effects of a playwright-driver run. -/
inductive PwEffect where
  | browserLaunch
  | navigate
deriving DecidableEq, Repr

/-- The content-type test
`/application\/(json|ld\+json)|text\/(plain|csv)/i` deciding whether the
raw response body is returned byte-exact. -/
def isStructuredContentType (ct : String) : Bool :=
  containsCI ct "application/json" || containsCI ct "application/ld+json" ||
    containsCI ct "text/plain" || containsCI ct "text/csv"

/-- The body resolution of step 8: text-only capture takes the page inner
text (content type left unset); with a navigation response, a structured
content type selects the raw response bytes, otherwise the serialized DOM;
without a response the serialized DOM is used. -/
def pwResolveBody (job : ScrapeJob) (env : PwEnv) (respStatus : Option Nat) :
    String × Option String :=
  if job.captureTextOnly then (env.innerText, none)
  else
    match respStatus with
    | some _ =>
      (match env.navContentType with
       | some ct =>
         if isStructuredContentType ct then env.rawBody else env.domContent
       | none => env.domContent,
       env.navContentType)
    | none => (env.domContent, none)

/-- The format negotiation of `runPlaywrightScrape`: an html entry unless
markdown was exclusively requested, a markdown entry when requested and
conversion succeeds, and the unconditional html fallback when no entry was
produced. -/
def pwNegotiateContents (job : ScrapeJob) (payloadBody : String)
    (payloadContentType : Option String) (markdownOutcome : Option String) :
    List ScrapedContent :=
  let formats := requestedFormats job
  let includeHtml := formats.contains ContentFormat.html
  let includeMarkdown := formats.contains ContentFormat.markdown
  let htmlEntry : ScrapedContent :=
    ⟨.html, payloadContentType.getD "text/html", payloadBody,
     payloadBody.utf8ByteSize⟩
  let entries :=
    (if includeHtml || !includeMarkdown then [htmlEntry] else []) ++
    (if includeMarkdown then
      match markdownOutcome with
      | some md => [⟨.markdown, "text/markdown", md, md.utf8ByteSize⟩]
      | none => []
    else [])
  if entries = [] then [htmlEntry] else entries

/-- The `loadStrategy` the playwright driver records. -/
def pwLoadStrategy (job : ScrapeJob) : LoadStrategy :=
  if job.waitForSelector.isSome then .waitForSelector else .loadEvent

/-- The page assembled at the end of a successful try block. -/
def pwBuildPage (job : ScrapeJob) (env : PwEnv) (respStatus : Option Nat) :
    ScrapedPage :=
  let body := pwResolveBody job env respStatus
  { url := job.targetUrl
    title := some env.title
    httpStatusCode := respStatus
    loadStrategy := pwLoadStrategy job
    contents := pwNegotiateContents job body.1 body.2 env.markdownOutcome
    metadata := env.metadataDescription.map fun d => ⟨d⟩ }

/-- The try block of `runPlaywrightScrape` as a sequence of failable
steps; an error carries the raw message together with the
`httpStatusCode` captured so far (set once navigation has returned).  The
extension check precedes browser acquisition, which precedes navigation;
the selector wait runs only for jobs with a hint and its failure is
fatal. -/
def pwAttempt (job : ScrapeJob) (env : PwEnv) :
    Except (String × Option Nat) ScrapedPage × List PwEffect :=
  match parseUrl job.targetUrl.toList with
  | none => (.error ("Invalid URL", none), [])
  | some targetUrl =>
    if isBlockedExtension targetUrl then
      (.error ("Disallowed file extension: " ++
        (⟨targetUrl.pathname⟩ : String), none), [])
    else
      match env.browser with
      | .error e => (.error (e, none), [.browserLaunch])
      | .ok _ =>
        match env.navigation with
        | .error e => (.error (e, none), [.browserLaunch, .navigate])
        | .ok respStatus =>
          match job.waitForSelector with
          | some _ =>
            (match env.selectorWait with
             | .error e => .error (e, respStatus)
             | .ok _ => .ok (pwBuildPage job env respStatus),
             [.browserLaunch, .navigate])
          | none =>
            (.ok (pwBuildPage job env respStatus),
             [.browserLaunch, .navigate])

/-- `runPlaywrightScrape` (playwright.ts): a completed try block returns
the success envelope; a thrown error is mapped through
`mapErrorToPageError` for the user-facing message while the raw text is
kept in `rawMessage`.  (The "completed without a payload" fallback message
of the source is unreachable: `scrapedPage` is set exactly when no
exception was thrown.)  Cleanup failures are logged and never alter the
outcome, so they do not appear in the model. -/
def runPlaywrightScrape (job : ScrapeJob) (env : PwEnv) :
    DriverResult × List PwEffect :=
  match pwAttempt job env with
  | (.ok page, effs) => (.success page, effs)
  | (.error (raw, status), effs) =>
    (.failure [{ targetUrl := job.targetUrl
                 message := mapErrorToPageError raw
                 rawMessage := raw
                 httpStatusCode := status
                 loadStrategy := pwLoadStrategy job }], effs)

/-! ## Shared-browser cache (playwright.ts `getBrowser` / `launchBrowser`)

The promise cache is modelled as a state machine over the JS event loop's
interleaving: promises are identified by creation order; `request` is one
`getBrowser()` call (synchronous up to returning the cached or fresh
promise), `launchResolved` / `launchRejected` are the settlement callbacks
of a launch promise, and `disconnected` is the browser's `disconnected`
handler.  Both the rejection `catch` and the disconnect handler clear the
cache unconditionally, as in the source. -/

/-- The module-level cache (`cachedBrowserPromise`) plus a fresh-id
counter for naming promises. -/
structure BrowserCacheState where
  cachedPromise : Option Nat
  nextId : Nat
deriving DecidableEq, Repr

/-- An event the cache reacts to. -/
inductive BrowserEvent where
  | request
  | launchResolved (p : Nat)
  | launchRejected (p : Nat)
  | disconnected
deriving DecidableEq, Repr

/-- What one `getBrowser()` call observes: the promise it returns and
whether it started a new launch. -/
structure RequestObs where
  returned : Nat
  launched : Bool
deriving DecidableEq, Repr

/-- One state transition: a request returns the cached promise when
present, otherwise creates, caches, and returns a fresh launch promise;
a resolved launch leaves the cache in place; a rejected launch and a
disconnect clear it. -/
def browserStep (s : BrowserCacheState) :
    BrowserEvent → BrowserCacheState × Option RequestObs
  | .request =>
    match s.cachedPromise with
    | some p => (s, some ⟨p, false⟩)
    | none =>
      ({ cachedPromise := some s.nextId, nextId := s.nextId + 1 },
       some ⟨s.nextId, true⟩)
  | .launchResolved _ => (s, none)
  | .launchRejected _ => ({ s with cachedPromise := none }, none)
  | .disconnected => ({ s with cachedPromise := none }, none)

/-- Run a sequence of events, collecting the request observations. -/
def runBrowserTrace (s : BrowserCacheState) :
    List BrowserEvent → BrowserCacheState × List RequestObs
  | [] => (s, [])
  | e :: t =>
    let step := browserStep s e
    let rest := runBrowserTrace step.1 t
    (rest.1,
     (match step.2 with
      | some o => [o]
      | none => []) ++ rest.2)

/-! ## Executor stream lemmas -/

/-- All records of a stream satisfy the counter invariants, given that the
running counters entering the loop satisfy them. -/
theorem runBatchStream_invariant (total : Nat) :
    ∀ (rest : List BatchJob) (done : Nat) (s f : Int),
      s + f = (done : Int) → done + rest.length = total →
      ∀ r ∈ runBatchStream total done s f rest,
        r.prog.completed + r.prog.remaining = (total : Int) ∧
        r.prog.succeeded + r.prog.failed = r.prog.completed := by
  intro rest
  induction rest with
  | nil =>
    intro done s f hsf hlen r hr
    simp only [runBatchStream, List.mem_singleton] at hr
    subst hr
    have : done = total := by simpa using hlen
    subst this
    refine ⟨by simp [StreamRecord.prog], ?_⟩
    simp [StreamRecord.prog, hsf]
  | cons j t ih =>
    intro done s f hsf hlen r hr
    obtain ⟨phases, o⟩ := j
    have hlen2 : (done + 1) + t.length = total := by
      simpa [Nat.add_comm, Nat.add_assoc, Nat.add_left_comm] using hlen
    have hdone_le : (done : Int) ≤ (total : Int) := by
      exact_mod_cast Nat.le.intro hlen
    have hseq_le : ((done + 1 : Nat) : Int) ≤ (total : Int) := by
      exact_mod_cast Nat.le.intro hlen2
    have hpre : (⟨(done : Int), (total : Int) - (done : Int), s, f⟩ :
        Progress).completed + (⟨(done : Int), (total : Int) - (done : Int),
          s, f⟩ : Progress).remaining = (total : Int) ∧
        s + f = (done : Int) := ⟨by ring, hsf⟩
    cases o with
    | success =>
      simp only [runBatchStream, List.mem_cons, List.mem_append,
        List.mem_map] at hr
      rcases hr with hq | ⟨⟨ph, _, hph⟩ | hterm | hrec⟩
      · subst hq
        exact ⟨hpre.1, by simpa [StreamRecord.prog] using hpre.2⟩
      · subst hph
        exact ⟨hpre.1, by simpa [StreamRecord.prog] using hpre.2⟩
      · subst hterm
        constructor
        · simp only [StreamRecord.prog]
          push_cast
          ring
        · simp only [StreamRecord.prog]
          push_cast
          omega
      · exact ih (done + 1) (s + 1) f (by push_cast; omega) hlen2 r hrec
    | fail =>
      simp only [runBatchStream, List.mem_cons, List.mem_append,
        List.mem_map] at hr
      rcases hr with hq | ⟨⟨ph, _, hph⟩ | hterm | hrec⟩
      · subst hq
        exact ⟨hpre.1, by simpa [StreamRecord.prog] using hpre.2⟩
      · subst hph
        exact ⟨hpre.1, by simpa [StreamRecord.prog] using hpre.2⟩
      · subst hterm
        constructor
        · simp only [StreamRecord.prog]
          push_cast
          ring
        · simp only [StreamRecord.prog]
          push_cast
          omega
      · exact ih (done + 1) s (f + 1) (by push_cast; omega) hlen2 r hrec
    | error =>
      simp only [runBatchStream, List.mem_cons, List.mem_append,
        List.mem_map] at hr
      rcases hr with hq | ⟨⟨ph, _, hph⟩ | hterm | hrec⟩
      · subst hq
        exact ⟨hpre.1, by simpa [StreamRecord.prog] using hpre.2⟩
      · subst hph
        exact ⟨hpre.1, by simpa [StreamRecord.prog] using hpre.2⟩
      · subst hterm
        constructor
        · simp only [StreamRecord.prog]
          push_cast
          ring
        · simp only [StreamRecord.prog]
          push_cast
          omega
      · exact ih (done + 1) s (f + 1) (by push_cast; omega) hlen2 r hrec

/-- Progress records contribute no terminal entries. -/
theorem terminalIndexOutcomes_progressMap (i : Nat) (p : Progress)
    (phases : List MidPhase) :
    terminalIndexOutcomes
      (phases.map fun ph => StreamRecord.progress i ph.toProgressPhase p) =
      [] := by
  induction phases with
  | nil => rfl
  | cons ph t ih => simpa [terminalIndexOutcomes] using ih

/-- The terminal records of the stream are exactly one per job, carrying
consecutive sequence indexes in input order. -/
theorem runBatchStream_terminals (total : Nat) :
    ∀ (rest : List BatchJob) (done : Nat) (s f : Int),
      terminalIndexOutcomes (runBatchStream total done s f rest) =
        List.enumFrom (done + 1) (rest.map (·.outcome)) := by
  intro rest
  induction rest with
  | nil =>
    intro done s f
    simp [runBatchStream, terminalIndexOutcomes]
  | cons j t ih =>
    intro done s f
    obtain ⟨phases, o⟩ := j
    cases o with
    | success =>
      have hmap := terminalIndexOutcomes_progressMap (done + 1)
        ⟨(done : Int), (total : Int) - (done : Int), s, f⟩ phases
      have hrec := ih (done + 1) (s + 1) f
      simp only [terminalIndexOutcomes, List.filterMap_map] at hmap hrec
      simp [runBatchStream, terminalIndexOutcomes, List.filterMap_append,
        List.filterMap_map, hmap, hrec, List.enumFrom]
    | fail =>
      have hmap := terminalIndexOutcomes_progressMap (done + 1)
        ⟨(done : Int), (total : Int) - (done : Int), s, f⟩ phases
      have hrec := ih (done + 1) s (f + 1)
      simp only [terminalIndexOutcomes, List.filterMap_map] at hmap hrec
      simp [runBatchStream, terminalIndexOutcomes, List.filterMap_append,
        List.filterMap_map, hmap, hrec, List.enumFrom]
    | error =>
      have hmap := terminalIndexOutcomes_progressMap (done + 1)
        ⟨(done : Int), (total : Int) - (done : Int), s, f⟩ phases
      have hrec := ih (done + 1) s (f + 1)
      simp only [terminalIndexOutcomes, List.filterMap_map] at hmap hrec
      simp [runBatchStream, terminalIndexOutcomes, List.filterMap_append,
        List.filterMap_map, hmap, hrec, List.enumFrom]

/-- The stream ends with exactly one summary record, carrying sequence
index `total + 1`. -/
theorem runBatchStream_summary (total : Nat) :
    ∀ (rest : List BatchJob) (done : Nat) (s f : Int),
      ∃ body S F,
        runBatchStream total done s f rest =
          body ++ [.summary (total + 1) ⟨(total : Int), 0, S, F⟩ S F] ∧
        ∀ r ∈ body, r.isSummary = false := by
  intro rest
  induction rest with
  | nil =>
    intro done s f
    exact ⟨[], s, f, by simp [runBatchStream], by simp⟩
  | cons j t ih =>
    intro done s f
    obtain ⟨phases, o⟩ := j
    have hphases : ∀ r ∈ (phases.map fun ph =>
        StreamRecord.progress (done + 1) ph.toProgressPhase
          ⟨(done : Int), (total : Int) - (done : Int), s, f⟩),
        r.isSummary = false := by
      intro r hr
      simp only [List.mem_map] at hr
      obtain ⟨ph, _, hph⟩ := hr
      subst hph
      rfl
    cases o with
    | success =>
      obtain ⟨body, S, F, heq, hbody⟩ := ih (done + 1) (s + 1) f
      refine ⟨.progress (done + 1) .queued
          ⟨(done : Int), (total : Int) - (done : Int), s, f⟩ ::
        ((phases.map fun ph => StreamRecord.progress (done + 1)
          ph.toProgressPhase
          ⟨(done : Int), (total : Int) - (done : Int), s, f⟩) ++
          (.terminal (done + 1) .success
            ⟨((done + 1 : Nat) : Int),
             (total : Int) - ((done + 1 : Nat) : Int), s + 1, f⟩ :: body)),
        S, F, ?_, ?_⟩
      · simp [runBatchStream, heq]
      · intro r hr
        simp only [List.mem_cons, List.mem_append] at hr
        rcases hr with h1 | ⟨h2 | h3 | h4⟩
        · subst h1; rfl
        · exact hphases r h2
        · subst h3; rfl
        · exact hbody r h4
    | fail =>
      obtain ⟨body, S, F, heq, hbody⟩ := ih (done + 1) s (f + 1)
      refine ⟨.progress (done + 1) .queued
          ⟨(done : Int), (total : Int) - (done : Int), s, f⟩ ::
        ((phases.map fun ph => StreamRecord.progress (done + 1)
          ph.toProgressPhase
          ⟨(done : Int), (total : Int) - (done : Int), s, f⟩) ++
          (.terminal (done + 1) .fail
            ⟨((done + 1 : Nat) : Int),
             (total : Int) - ((done + 1 : Nat) : Int), s, f + 1⟩ :: body)),
        S, F, ?_, ?_⟩
      · simp [runBatchStream, heq]
      · intro r hr
        simp only [List.mem_cons, List.mem_append] at hr
        rcases hr with h1 | ⟨h2 | h3 | h4⟩
        · subst h1; rfl
        · exact hphases r h2
        · subst h3; rfl
        · exact hbody r h4
    | error =>
      obtain ⟨body, S, F, heq, hbody⟩ := ih (done + 1) s (f + 1)
      refine ⟨.progress (done + 1) .queued
          ⟨(done : Int), (total : Int) - (done : Int), s, f⟩ ::
        ((phases.map fun ph => StreamRecord.progress (done + 1)
          ph.toProgressPhase
          ⟨(done : Int), (total : Int) - (done : Int), s, f⟩) ++
          (.terminal (done + 1) .error
            ⟨((done + 1 : Nat) : Int),
             (total : Int) - ((done + 1 : Nat) : Int), s, f + 1⟩ :: body)),
        S, F, ?_, ?_⟩
      · simp [runBatchStream, heq]
      · intro r hr
        simp only [List.mem_cons, List.mem_append] at hr
        rcases hr with h1 | ⟨h2 | h3 | h4⟩
        · subst h1; rfl
        · exact hphases r h2
        · subst h3; rfl
        · exact hbody r h4

/-! ## Claim theorems C1 and C2 -/

/-- Claim C1: every record of the stream — progress records, per-job
terminal records, and the final summary — carries counters satisfying
`completed + remaining = total` and `succeeded + failed = completed` at
the instant of emission, where `total` is the number of jobs in the
batch. -/
theorem counters_invariant (jobs : List BatchJob) (r : StreamRecord)
    (hr : r ∈ executeBatch jobs) :
    r.prog.completed + r.prog.remaining = (jobs.length : Int) ∧
    r.prog.succeeded + r.prog.failed = r.prog.completed :=
  runBatchStream_invariant jobs.length jobs 0 0 0 (by simp) (by simp) r hr

/-- Witness for C1 at a concrete batch: the terminal record of a
one-job batch satisfies both counter equations. -/
theorem counters_invariant_witness :
    (StreamRecord.terminal 1 .success ⟨1, 0, 1, 0⟩).prog.completed +
        (StreamRecord.terminal 1 .success ⟨1, 0, 1, 0⟩).prog.remaining =
      ((List.length [(⟨[.navigating], .success⟩ : BatchJob)] : Nat) : Int) ∧
    (StreamRecord.terminal 1 .success ⟨1, 0, 1, 0⟩).prog.succeeded +
        (StreamRecord.terminal 1 .success ⟨1, 0, 1, 0⟩).prog.failed =
      (StreamRecord.terminal 1 .success ⟨1, 0, 1, 0⟩).prog.completed :=
  counters_invariant [⟨[.navigating], .success⟩]
    (StreamRecord.terminal 1 .success ⟨1, 0, 1, 0⟩) (by decide)

/-- Claim C2: a batch of `n` jobs emits exactly `n` per-job terminal
records, one per job in input order with sequence indexes `1..n`, and the
stream's unique summary record is its last record and carries sequence
index `n + 1`; every job — including ones whose driver call fails or
throws — produces its terminal record. -/
theorem batch_terminal_records (jobs : List BatchJob) :
    terminalIndexOutcomes (executeBatch jobs) =
      List.enumFrom 1 (jobs.map (·.outcome)) ∧
    ∃ body S F,
      executeBatch jobs =
        body ++ [.summary (jobs.length + 1)
          ⟨(jobs.length : Int), 0, S, F⟩ S F] ∧
      ∀ r ∈ body, r.isSummary = false :=
  ⟨runBatchStream_terminals jobs.length jobs 0 0 0,
   runBatchStream_summary jobs.length jobs 0 0 0⟩

/-! ## Substring helper lemmas -/

/-- A list is a Boolean prefix of itself followed by anything. -/
theorem isPrefixOf_append_self (m b : List Char) :
    m.isPrefixOf (m ++ b) = true := by
  induction m with
  | nil => simp [List.isPrefixOf]
  | cons c t ih => simpa [List.isPrefixOf] using ih

/-- `containsSub` holds for any explicit infix decomposition. -/
theorem containsSub_of_decomp (u m v : List Char) :
    containsSub (u ++ m ++ v) m = true := by
  induction u with
  | nil =>
    cases m with
    | nil => cases v <;> simp [containsSub, List.isPrefixOf]
    | cons c t =>
      have hpre := isPrefixOf_append_self (c :: t) v
      simp only [List.cons_append] at hpre
      simp [containsSub, hpre]
  | cons c u2 ih =>
    simp only [List.cons_append, containsSub, Bool.or_eq_true]
    exact Or.inr ih

/-! ## Driver-run helper lemmas -/

/-- An empty-list fallback guard never produces the empty list. -/
theorem ite_ne_nil {α : Type} [DecidableEq α] (E : List α) (x : α) :
    (if E = [] then [x] else E) ≠ [] := by
  split
  · simp
  · rename_i h
    exact h

/-- The format negotiation of the playwright driver never yields an empty
content list. -/
theorem pwNegotiateContents_ne_nil (job : ScrapeJob) (b : String)
    (ct : Option String) (md : Option String) :
    pwNegotiateContents job b ct md ≠ [] := by
  unfold pwNegotiateContents
  exact ite_ne_nil _ _

/-- `buildHttpSuccess` always returns a success whose content list is
non-empty. -/
theorem buildHttpSuccess_contents_ne_nil (job : ScrapeJob) (st : Nat)
    (html : String) (md : Option String) (d : Option String) (ct : String)
    (page : ScrapedPage)
    (h : buildHttpSuccess job st html md d ct = .success page) :
    page.contents ≠ [] := by
  unfold buildHttpSuccess at h
  rw [DriverResult.success.injEq] at h
  subst h
  exact ite_ne_nil _ _

/-- Inversion for the http driver: a success result only arises from the
2xx branch, via `buildHttpSuccess`. -/
theorem runHttpScrape_success_inv (job : ScrapeJob) (env : HttpEnv)
    (page : ScrapedPage)
    (h : (runHttpScrape job env).1 = .ok (.success page)) :
    ∃ resp markdown,
      env.fetchOutcome = .ok resp ∧
      buildHttpSuccess job resp.status resp.body markdown
        (extractDescription resp.body)
        (resp.contentType.getD "text/html") = .success page := by
  unfold runHttpScrape at h
  split at h
  · simp at h
  · split at h
    · simp [buildHttpFailure] at h
    · split at h
      · simp [buildHttpFailure] at h
      · rename_i resp hresp
        split at h
        · simp [buildHttpFailure] at h
        · exact ⟨resp,
            (if (requestedFormats job).contains ContentFormat.markdown then
              env.markdownOutcome
            else none),
            hresp, by simpa using h⟩

/-- Inversion for the playwright driver: a success result carries the page
built by `pwBuildPage`. -/
theorem runPlaywrightScrape_success_inv (job : ScrapeJob) (env : PwEnv)
    (page : ScrapedPage)
    (h : (runPlaywrightScrape job env).1 = .success page) :
    ∃ respStatus, pwBuildPage job env respStatus = page := by
  unfold runPlaywrightScrape at h
  split at h
  · rename_i page2 effs heq
    injection h with hpage
    subst hpage
    unfold pwAttempt at heq
    split at heq
    · simp at heq
    · split at heq
      · simp at heq
      · split at heq
        · simp at heq
        · split at heq
          · simp at heq
          · rename_i respStatus _
            split at heq
            · split at heq
              · simp at heq
              · simp only [Prod.mk.injEq] at heq
                obtain ⟨hq, _⟩ := heq
                rw [Except.ok.injEq] at hq
                exact ⟨respStatus, hq⟩
            · simp only [Prod.mk.injEq] at heq
              obtain ⟨hq, _⟩ := heq
              rw [Except.ok.injEq] at hq
              exact ⟨respStatus, hq⟩
  · rename_i e effs heq
    simp at h

/-- `String.toList` distributes over append. -/
theorem toList_append_eq (s t : String) :
    (s ++ t).toList = s.toList ++ t.toList := by
  cases s
  cases t
  rfl

/-- The pre-flight failure message always contains the denylist marker. -/
theorem containsSub_disallowed (s : String) :
    containsSub ("Disallowed file extension: " ++ s).toList
      "Disallowed file extension".toList = true := by
  have h1 : ("Disallowed file extension: " ++ s).toList =
      [] ++ "Disallowed file extension".toList ++
        (": ".toList ++ s.toList) := by
    rw [toList_append_eq]
    simp only [List.nil_append, List.append_assoc]
    rw [show "Disallowed file extension: ".toList =
      "Disallowed file extension".toList ++ ": ".toList from by decide]
    rw [List.append_assoc]
  rw [h1]
  exact containsSub_of_decomp _ _ _

/-- A string starting with the denylist marker is non-empty. -/
theorem disallowed_msg_ne_empty (s : String) :
    ("Disallowed file extension: " ++ s) ≠ "" := by
  intro h
  have := congrArg String.toList h
  rw [toList_append_eq] at this
  simp at this

/-- The playwright `loadStrategy` field equals `wait-for-selector` exactly
when the job carries a selector hint. -/
theorem pwLoadStrategy_iff (job : ScrapeJob) :
    pwLoadStrategy job = .waitForSelector ↔
      job.waitForSelector.isSome = true := by
  unfold pwLoadStrategy
  cases job.waitForSelector <;> simp

/-! ## Witness fixtures (concrete jobs and environments) -/

/-- A plain job with no options. -/
def wJob : ScrapeJob :=
  { targetUrl := "https://example.com/x", captureTextOnly := false,
    timeoutMs := 1000 }

/-- A benign http environment returning a small 2xx page. -/
def wHttpEnv : HttpEnv :=
  { fetchOutcome := .ok ⟨200, "OK", "<p>ok</p>", some "text/html"⟩,
    markdownOutcome := none }

/-- A benign playwright environment. -/
def wPwEnv : PwEnv :=
  { browser := .ok (), navigation := .ok (some 200),
    navContentType := some "text/html", selectorWait := .ok (),
    innerText := "hi", rawBody := "raw", domContent := "<p>hi</p>",
    metadataDescription := some (some "d"), markdownOutcome := none,
    title := "T" }

/-- A job whose host does not resolve. -/
def wJobDns : ScrapeJob :=
  { targetUrl := "https://nxdomain.example/", captureTextOnly := true,
    timeoutMs := 1000 }

/-- A playwright environment whose browser launch fails with a DNS error
text. -/
def wPwEnvDns : PwEnv :=
  { wPwEnv with
    browser := .error "net::ERR_NAME_NOT_RESOLVED at https://nxdomain.example/" }

/-! ## Claim theorem C3 -/

/-- Claim C3: a success result of either driver has a non-empty contents
list — even when markdown is the only requested format and conversion
fails, the html entry is included as fallback. -/
theorem success_contents_nonempty :
    (∀ (job : ScrapeJob) (env : HttpEnv) (page : ScrapedPage),
        (runHttpScrape job env).1 = .ok (.success page) →
        page.contents ≠ []) ∧
    (∀ (job : ScrapeJob) (env : PwEnv) (page : ScrapedPage),
        (runPlaywrightScrape job env).1 = .success page →
        page.contents ≠ []) := by
  constructor
  · intro job env page h
    obtain ⟨resp, markdown, _, hbuild⟩ := runHttpScrape_success_inv job env page h
    exact buildHttpSuccess_contents_ne_nil job resp.status resp.body markdown
      (extractDescription resp.body) (resp.contentType.getD "text/html")
      page hbuild
  · intro job env page h
    obtain ⟨respStatus, hbuild⟩ := runPlaywrightScrape_success_inv job env page h
    have : page.contents = pwNegotiateContents job
        (pwResolveBody job env respStatus).1
        (pwResolveBody job env respStatus).2 env.markdownOutcome := by
      rw [← hbuild]
      rfl
    rw [this]
    exact pwNegotiateContents_ne_nil job _ _ _

/-- Witness for C3: a markdown-only playwright job whose conversion fails
still succeeds with the html fallback entry. -/
theorem success_contents_nonempty_witness :
    ({ url := "https://example.com/x", title := some "T",
       httpStatusCode := some 200, loadStrategy := .loadEvent,
       contents := [⟨.html, "text/html", "<p>hi</p>", 9⟩],
       metadata := some ⟨some "d"⟩ } : ScrapedPage).contents ≠ [] :=
  success_contents_nonempty.2
    { wJob with outputFormats := some [.markdown] } wPwEnv
    { url := "https://example.com/x", title := some "T",
      httpStatusCode := some 200, loadStrategy := .loadEvent,
      contents := [⟨.html, "text/html", "<p>hi</p>", 9⟩],
      metadata := some ⟨some "d"⟩ }
    (by decide)

/-! ## Claim theorem C4 -/

/-- Claim C4: the user-facing failure message of the full-render driver is
the deterministic image of the raw error text under the ordered pattern
table (timeout, then DNS, then connection, else verbatim), and the raw
message is preserved separately in the error detail. -/
theorem error_mapping :
    (∀ m : String, containsCI m "timeout" = true →
      mapErrorToPageError m = "Timed out while loading the page") ∧
    (∀ m : String, containsCI m "timeout" = false →
      containsCI m "net::ERR_NAME_NOT_RESOLVED" = true →
      mapErrorToPageError m = "DNS resolution failed for the requested host") ∧
    (∀ m : String, containsCI m "timeout" = false →
      containsCI m "net::ERR_NAME_NOT_RESOLVED" = false →
      containsCI m "net::ERR_CONNECTION" = true →
      mapErrorToPageError m =
        "Connection error encountered while fetching the page") ∧
    (∀ m : String, containsCI m "timeout" = false →
      containsCI m "net::ERR_NAME_NOT_RESOLVED" = false →
      containsCI m "net::ERR_CONNECTION" = false →
      mapErrorToPageError m = m) ∧
    (∀ (job : ScrapeJob) (env : PwEnv) (raw : String)
        (status : Option Nat) (effs : List PwEffect),
      pwAttempt job env = (.error (raw, status), effs) →
      (runPlaywrightScrape job env).1 =
        .failure [⟨job.targetUrl, mapErrorToPageError raw, raw, status,
          pwLoadStrategy job⟩]) := by
  refine ⟨?_, ?_, ?_, ?_, ?_⟩
  · intro m h1
    simp [mapErrorToPageError, h1]
  · intro m h1 h2
    simp [mapErrorToPageError, h1, h2]
  · intro m h1 h2 h3
    simp [mapErrorToPageError, h1, h2, h3]
  · intro m h1 h2 h3
    simp [mapErrorToPageError, h1, h2, h3]
  · intro job env raw status effs h
    simp [runPlaywrightScrape, h]

/-- Witness for C4: a timeout text maps to the canonical timeout message,
and a launch failure's raw text is both mapped and preserved. -/
theorem error_mapping_witness :
    mapErrorToPageError "Timeout 30000ms exceeded" =
      "Timed out while loading the page" ∧
    (runPlaywrightScrape wJobDns wPwEnvDns).1 =
      .failure [⟨"https://nxdomain.example/",
        "DNS resolution failed for the requested host",
        "net::ERR_NAME_NOT_RESOLVED at https://nxdomain.example/",
        none, .loadEvent⟩] :=
  ⟨error_mapping.1 "Timeout 30000ms exceeded" (by decide),
   error_mapping.2.2.2.2 wJobDns wPwEnvDns
     "net::ERR_NAME_NOT_RESOLVED at https://nxdomain.example/" none
     [.browserLaunch] (by decide)⟩

/-! ## Claim theorem C9 -/

/-- Inversion for http failures: every error detail carries the
`load-event` strategy. -/
theorem runHttpScrape_failure_loadEvent (job : ScrapeJob) (env : HttpEnv)
    (ds : List ScrapeErrorDetail)
    (h : (runHttpScrape job env).1 = .ok (.failure ds)) :
    ∀ d ∈ ds, d.loadStrategy = .loadEvent := by
  unfold runHttpScrape at h
  split at h
  · simp at h
  · split at h
    · simp only [buildHttpFailure, Except.ok.injEq, DriverResult.failure.injEq]
        at h
      subst h
      intro d hd
      simp only [List.mem_singleton] at hd
      subst hd
      rfl
    · split at h
      · simp only [buildHttpFailure, Except.ok.injEq,
          DriverResult.failure.injEq] at h
        subst h
        intro d hd
        simp only [List.mem_singleton] at hd
        subst hd
        rfl
      · split at h
        · simp only [buildHttpFailure, Except.ok.injEq,
            DriverResult.failure.injEq] at h
          subst h
          intro d hd
          simp only [List.mem_singleton] at hd
          subst hd
          rfl
        · simp [buildHttpSuccess] at h

/-- Claim C9: the http driver records `load-event` unconditionally on both
success and failure (the wait-for-selector hint is ignored entirely),
while the playwright driver records `wait-for-selector` exactly when the
job supplies a hint. -/
theorem http_ignores_selector :
    (∀ (job : ScrapeJob) (env : HttpEnv) (page : ScrapedPage),
        (runHttpScrape job env).1 = .ok (.success page) →
        page.loadStrategy = .loadEvent) ∧
    (∀ (job : ScrapeJob) (env : HttpEnv) (ds : List ScrapeErrorDetail),
        (runHttpScrape job env).1 = .ok (.failure ds) →
        ∀ d ∈ ds, d.loadStrategy = .loadEvent) ∧
    (∀ (job : ScrapeJob) (env : PwEnv) (page : ScrapedPage),
        (runPlaywrightScrape job env).1 = .success page →
        (page.loadStrategy = .waitForSelector ↔
          job.waitForSelector.isSome = true)) ∧
    (∀ (job : ScrapeJob) (env : PwEnv) (ds : List ScrapeErrorDetail)
        (d : ScrapeErrorDetail),
        (runPlaywrightScrape job env).1 = .failure ds → d ∈ ds →
        (d.loadStrategy = .waitForSelector ↔
          job.waitForSelector.isSome = true)) := by
  refine ⟨?_, runHttpScrape_failure_loadEvent, ?_, ?_⟩
  · intro job env page h
    obtain ⟨resp, markdown, _, hbuild⟩ :=
      runHttpScrape_success_inv job env page h
    unfold buildHttpSuccess at hbuild
    rw [DriverResult.success.injEq] at hbuild
    subst hbuild
    rfl
  · intro job env page h
    obtain ⟨respStatus, hbuild⟩ :=
      runPlaywrightScrape_success_inv job env page h
    have : page.loadStrategy = pwLoadStrategy job := by
      rw [← hbuild]
      rfl
    rw [this]
    exact pwLoadStrategy_iff job
  · intro job env ds d h hd
    unfold runPlaywrightScrape at h
    split at h
    · simp at h
    · rename_i raw status effs heq
      rw [DriverResult.failure.injEq] at h
      subst h
      simp only [List.mem_singleton] at hd
      subst hd
      exact pwLoadStrategy_iff job

/-- Witness for C9: an http job carrying a wait-for-selector hint still
records `load-event` on success. -/
theorem http_ignores_selector_witness :
    ({ url := "https://example.com/x", title := none,
       httpStatusCode := some 200, loadStrategy := .loadEvent,
       contents := [⟨.html, "text/html", "<p>ok</p>", 9⟩],
       metadata := some ⟨none⟩ } : ScrapedPage).loadStrategy = .loadEvent :=
  http_ignores_selector.1
    { wJob with waitForSelector := some "#app" } wHttpEnv
    { url := "https://example.com/x", title := none,
      httpStatusCode := some 200, loadStrategy := .loadEvent,
      contents := [⟨.html, "text/html", "<p>ok</p>", 9⟩],
      metadata := some ⟨none⟩ }
    (by decide)

/-! ## Claim theorem C5 (corrected) -/

/-- Counterexample to C5 as stated: for the target
`https://example.com/timeout.pdf` the playwright driver's pre-flight
denylist error is passed through the error-mapping table, whose timeout
pattern matches the pathname, so the user-facing message is the mapped
timeout text and does not contain "Disallowed file extension" (the raw
message still does). -/
theorem blocked_extension_message_counterexample :
    (runPlaywrightScrape
      { targetUrl := "https://example.com/timeout.pdf",
        captureTextOnly := true, timeoutMs := 1000 } wPwEnv).1 =
      .failure [⟨"https://example.com/timeout.pdf",
        "Timed out while loading the page",
        "Disallowed file extension: /timeout.pdf", none, .loadEvent⟩] ∧
    containsSub "Timed out while loading the page".toList
      "Disallowed file extension".toList = false := by
  decide

/-- Claim C5 (amended): a job whose URL path ends in a denylisted
extension is short-circuited by both drivers into a handled failure
(status fail) with an empty effect list — no network fetch and no browser
launch.  The http driver's message is exactly the pre-flight text and
contains "Disallowed file extension"; the playwright driver preserves that
text as the raw message and reports `mapErrorToPageError` of it as the
user-facing message (which equals the raw text unless the pathname itself
matches a mapping pattern). -/
theorem blocked_extension_shortcircuit :
    (∀ (job : ScrapeJob) (env : HttpEnv) (u : UrlParts),
        parseUrl job.targetUrl.toList = some u →
        isBlockedExtension u = true →
        runHttpScrape job env =
          (.ok (.failure [⟨job.targetUrl,
            "Disallowed file extension: " ++ (⟨u.pathname⟩ : String),
            "Disallowed file extension: " ++ (⟨u.pathname⟩ : String),
            none, .loadEvent⟩]), []) ∧
        containsSub
          ("Disallowed file extension: " ++ (⟨u.pathname⟩ : String)).toList
          "Disallowed file extension".toList = true) ∧
    (∀ (job : ScrapeJob) (env : PwEnv) (u : UrlParts),
        parseUrl job.targetUrl.toList = some u →
        isBlockedExtension u = true →
        runPlaywrightScrape job env =
          (.failure [⟨job.targetUrl,
            mapErrorToPageError
              ("Disallowed file extension: " ++ (⟨u.pathname⟩ : String)),
            "Disallowed file extension: " ++ (⟨u.pathname⟩ : String),
            none, pwLoadStrategy job⟩], []) ∧
        containsSub
          ("Disallowed file extension: " ++ (⟨u.pathname⟩ : String)).toList
          "Disallowed file extension".toList = true) := by
  constructor
  · intro job env u hu hblocked
    refine ⟨?_, containsSub_disallowed _⟩
    unfold runHttpScrape
    rw [hu]
    simp only [hblocked, if_pos]
    unfold buildHttpFailure
    rw [if_neg (disallowed_msg_ne_empty _)]
    rfl
  · intro job env u hu hblocked
    refine ⟨?_, containsSub_disallowed _⟩
    unfold runPlaywrightScrape pwAttempt
    rw [hu]
    simp only [hblocked, if_pos]

/-- Witness for the amended C5 at `https://example.com/report.pdf`: both
drivers fail pre-flight with no effects and the marker in the message. -/
theorem blocked_extension_shortcircuit_witness :
    (runHttpScrape
        { targetUrl := "https://example.com/report.pdf",
          captureTextOnly := true, timeoutMs := 1000 } wHttpEnv =
      (.ok (.failure [⟨"https://example.com/report.pdf",
        "Disallowed file extension: " ++ (⟨"/report.pdf".toList⟩ : String),
        "Disallowed file extension: " ++ (⟨"/report.pdf".toList⟩ : String),
        none, .loadEvent⟩]), []) ∧
      containsSub ("Disallowed file extension: " ++
          (⟨"/report.pdf".toList⟩ : String)).toList
        "Disallowed file extension".toList = true) ∧
    (runPlaywrightScrape
        { targetUrl := "https://example.com/report.pdf",
          captureTextOnly := true, timeoutMs := 1000 } wPwEnv =
      (.failure [⟨"https://example.com/report.pdf",
        mapErrorToPageError ("Disallowed file extension: " ++
          (⟨"/report.pdf".toList⟩ : String)),
        "Disallowed file extension: " ++ (⟨"/report.pdf".toList⟩ : String),
        none, pwLoadStrategy
          { targetUrl := "https://example.com/report.pdf",
            captureTextOnly := true, timeoutMs := 1000 }⟩], []) ∧
      containsSub ("Disallowed file extension: " ++
          (⟨"/report.pdf".toList⟩ : String)).toList
        "Disallowed file extension".toList = true) :=
  ⟨blocked_extension_shortcircuit.1
      { targetUrl := "https://example.com/report.pdf",
        captureTextOnly := true, timeoutMs := 1000 } wHttpEnv
      ⟨"https".toList, "example.com".toList, "/report.pdf".toList,
        none, none⟩ (by decide) (by decide),
   blocked_extension_shortcircuit.2
      { targetUrl := "https://example.com/report.pdf",
        captureTextOnly := true, timeoutMs := 1000 } wPwEnv
      ⟨"https".toList, "example.com".toList, "/report.pdf".toList,
        none, none⟩ (by decide) (by decide)⟩

/-! ## Claim theorem C6 (corrected) -/

/-- Counterexample to C6 as stated: with the configured default driver
(`playwright`, the env-schema default), a text-only job with no
DOM-sensitive options and no explicit driver resolves to playwright, not
http; and an explicit `http` driver choice overrides a wait-for-selector
hint. -/
theorem driver_auto_selection_counterexample :
    resolveDriverName SCRAPER_DEFAULT_DRIVER_default
      { targetUrl := "https://example.com/", captureTextOnly := true,
        timeoutMs := 1000 } ≠ .http ∧
    resolveDriverName SCRAPER_DEFAULT_DRIVER_default
      { targetUrl := "https://example.com/", captureTextOnly := true,
        timeoutMs := 1000, waitForSelector := some "#app",
        driver := some .http } ≠ .playwright := by
  decide

/-- Claim C6 (amended): when the requested driver — the job's explicit
choice, or else the configured default — is `auto`, a job with
`captureTextOnly` and none of the DOM-sensitive options resolves to the
http driver, and a job with a wait-for-selector hint resolves to the
playwright driver regardless of the other options. -/
theorem driver_auto_selection (defaultDriver : ScrapeDriverName)
    (job : ScrapeJob) (hauto : job.driver.getD defaultDriver = .auto) :
    (job.waitForSelector = none → job.viewport = none → job.locale = none →
      job.timezoneId = none → job.captureTextOnly = true →
      resolveDriverName defaultDriver job = .http) ∧
    (job.waitForSelector.isSome = true →
      resolveDriverName defaultDriver job = .playwright) := by
  constructor
  · intro h1 h2 h3 h4 h5
    simp [resolveDriverName, hauto, chooseAutoDriver, h1, h2, h3, h4, h5]
  · intro h1
    simp [resolveDriverName, hauto, chooseAutoDriver, h1]

/-- Witness for the amended C6: with an explicit `auto` request, a
text-only job resolves to http and a selector-hinted job to playwright. -/
theorem driver_auto_selection_witness :
    resolveDriverName SCRAPER_DEFAULT_DRIVER_default
      { targetUrl := "https://example.com/", captureTextOnly := true,
        timeoutMs := 1000, driver := some .auto } = .http ∧
    resolveDriverName .auto
      { targetUrl := "https://example.com/", captureTextOnly := true,
        timeoutMs := 1000, waitForSelector := some "#app",
        viewport := some (800, 600) } = .playwright :=
  ⟨(driver_auto_selection SCRAPER_DEFAULT_DRIVER_default
      { targetUrl := "https://example.com/", captureTextOnly := true,
        timeoutMs := 1000, driver := some .auto } (by decide)).1
      rfl rfl rfl rfl rfl,
   (driver_auto_selection .auto
      { targetUrl := "https://example.com/", captureTextOnly := true,
        timeoutMs := 1000, waitForSelector := some "#app",
        viewport := some (800, 600) } (by decide)).2 rfl⟩

/-! ## Claim theorem C10 -/

/-- While a promise is cached, request-only traces return it unchanged and
never launch. -/
theorem runBrowserTrace_requests_cached :
    ∀ (rest : List BrowserEvent) (s : BrowserCacheState) (p : Nat),
      s.cachedPromise = some p → (∀ e ∈ rest, e = .request) →
      (runBrowserTrace s rest).2 = rest.map fun _ => ⟨p, false⟩ := by
  intro rest
  induction rest with
  | nil =>
    intro s p hp hall
    simp [runBrowserTrace]
  | cons e t ih =>
    intro s p hp hall
    have he : e = .request := hall e (by simp)
    subst he
    have hrec := ih s p hp (fun e2 he2 => hall e2 (by simp [he2]))
    simp [runBrowserTrace, browserStep, hp, hrec]

/-- Claim C10: before the first launch completes, every `getBrowser`
caller observes the same launch promise — the first call creates and
caches it, all further calls in the window return it without launching a
second browser; a rejected launch clears the cache, and a request against
the cleared cache starts a fresh launch. -/
theorem browser_launch_single_flight :
    (∀ (s : BrowserCacheState) (rest : List BrowserEvent),
        s.cachedPromise = none → (∀ e ∈ rest, e = .request) →
        (runBrowserTrace s (.request :: rest)).2 =
          ⟨s.nextId, true⟩ :: (rest.map fun _ => ⟨s.nextId, false⟩)) ∧
    (∀ (s : BrowserCacheState) (p : Nat),
        (browserStep s (.launchRejected p)).1.cachedPromise = none) ∧
    (∀ s : BrowserCacheState, s.cachedPromise = none →
        browserStep s .request =
          ({ cachedPromise := some s.nextId, nextId := s.nextId + 1 },
           some ⟨s.nextId, true⟩)) := by
  refine ⟨?_, ?_, ?_⟩
  · intro s rest hnone hall
    have hrec := runBrowserTrace_requests_cached rest
      { cachedPromise := some s.nextId, nextId := s.nextId + 1 } s.nextId
      rfl hall
    simp [runBrowserTrace, browserStep, hnone, hrec]
  · intro s p
    rfl
  · intro s hnone
    simp [browserStep, hnone]

/-- Witness for C10: from an empty cache, three concurrent callers see one
launch and the same promise. -/
theorem browser_launch_single_flight_witness :
    (runBrowserTrace ⟨none, 0⟩
      [.request, .request, .request]).2 =
      ⟨0, true⟩ ::
        ([BrowserEvent.request, .request].map fun _ => ⟨0, false⟩) :=
  browser_launch_single_flight.1 ⟨none, 0⟩ [.request, .request] rfl
    (by decide)

/-! ## Matcher decomposition lemmas (for C7) -/

/-- `containsSub` is stable under prepending. -/
theorem containsSub_append_left (a b pat : List Char)
    (h : containsSub b pat = true) : containsSub (a ++ b) pat = true := by
  induction a with
  | nil => simpa using h
  | cons c t ih =>
    simp only [List.cons_append, containsSub, Bool.or_eq_true]
    exact Or.inr ih

/-- Lower-cased containment is stable under passing to a suffix's
superlist. -/
theorem containsSub_lower_suffix {l2 t : List Char} (pat : List Char)
    (hsuf : l2 <:+ t) (h : containsSub (lowerList l2) pat = true) :
    containsSub (lowerList t) pat = true := by
  obtain ⟨B, hB⟩ := hsuf
  subst hB
  simp only [lowerList, List.map_append]
  exact containsSub_append_left _ _ _ h

/-- A successful leftmost scan happens at some suffix. -/
theorem scanFind_suffix {α : Type} (f : List Char → Option α) :
    ∀ (l : List Char) (r : α), scanFind f l = some r →
      ∃ l2, l2 <:+ l ∧ f l2 = some r := by
  intro l
  induction l with
  | nil =>
    intro r h
    exact ⟨[], List.suffix_refl [], by simpa [scanFind] using h⟩
  | cons c t ih =>
    intro r h
    simp only [scanFind] at h
    split at h
    · rename_i r2 hr2
      exact ⟨c :: t, List.suffix_refl _, by rw [hr2, h]⟩
    · obtain ⟨l2, hsuf, hf⟩ := ih r h
      exact ⟨l2, hsuf.trans (List.suffix_cons c t), hf⟩

/-- A successful greedy gap match hands the continuation some suffix. -/
theorem gapMatch_suffix {α : Type} (ok : Char → Bool)
    (k : List Char → Option α) :
    ∀ (l : List Char) (r : α), gapMatch ok k l = some r →
      ∃ l2, l2 <:+ l ∧ k l2 = some r := by
  intro l
  induction l with
  | nil =>
    intro r h
    exact ⟨[], List.suffix_refl [], by simpa [gapMatch] using h⟩
  | cons c t ih =>
    intro r h
    simp only [gapMatch] at h
    split at h
    · split at h
      · rename_i r2 hr2
        obtain ⟨l2, hsuf, hf⟩ := ih r (by rw [hr2, h])
        exact ⟨l2, hsuf.trans (List.suffix_cons c t), hf⟩
      · exact ⟨c :: t, List.suffix_refl _, h⟩
    · exact ⟨c :: t, List.suffix_refl _, h⟩

/-- A successful case-insensitive prefix strip decomposes the input. -/
theorem stripPrefixCI_decomp :
    ∀ (p l r : List Char), stripPrefixCI p l = some r →
      ∃ pre, l = pre ++ r ∧ lowerList pre = lowerList p := by
  intro p
  induction p with
  | nil =>
    intro l r h
    simp only [stripPrefixCI, Option.some.injEq] at h
    exact ⟨[], by simp [h], rfl⟩
  | cons x xs ih =>
    intro l r h
    cases l with
    | nil => simp [stripPrefixCI] at h
    | cons c cs =>
      simp only [stripPrefixCI] at h
      split at h
      · rename_i hlow
        obtain ⟨pre, hpre, hl⟩ := ih cs r h
        exact ⟨c :: pre, by simp [hpre],
          by simp [lowerList] at hl ⊢; exact ⟨hlow, hl⟩⟩
      · simp at h

/-- A successful quote match consumes one quote character, which is
invariant under lower-casing. -/
theorem matchQuote_decomp (l r : List Char) (h : matchQuote l = some r) :
    ∃ q, l = q :: r ∧ (q = '"' ∨ q = squote) ∧ toLowerChar q = q := by
  cases l with
  | nil => simp [matchQuote] at h
  | cons c t =>
    simp only [matchQuote] at h
    split at h
    · rename_i hq
      rw [Option.some.injEq] at h
      subst h
      rcases Bool.or_eq_true _ _ |>.mp hq with h1 | h1
      · exact ⟨c, rfl, Or.inl (by simpa using h1), by
          have : c = '"' := by simpa using h1
          subst this
          decide⟩
      · exact ⟨c, rfl, Or.inr (by simpa using h1), by
          have : c = squote := by simpa using h1
          subst this
          decide⟩
    · simp at h

/-- A successful `name=VALUE` meta-content match forces the literal
attribute text `name=` quote VALUE quote to occur, case-insensitively, in
the document. -/
theorem metaNameContentFind_infix (value html cap : List Char)
    (h : metaNameContentFind value html = some cap) :
    ∃ q1 q2, (q1 = '"' ∨ q1 = squote) ∧ (q2 = '"' ∨ q2 = squote) ∧
      containsSub (lowerList html)
        ("name=".toList ++ q1 :: (lowerList value ++ [q2])) = true := by
  unfold metaNameContentFind at h
  obtain ⟨l0, hsuf0, h0⟩ := scanFind_suffix _ html cap h
  unfold tagAttrContentAt at h0
  rw [Option.bind_eq_some] at h0
  obtain ⟨l1, hstrip1, h1⟩ := h0
  cases l1 with
  | nil => simp at h1
  | cons c t =>
    simp only [] at h1
    split at h1
    · simp at h1
    · obtain ⟨l2, hsuf2, h2⟩ := gapMatch_suffix _ _ t cap h1
      rw [Option.bind_eq_some] at h2
      obtain ⟨l3, hstripN, h3⟩ := h2
      rw [Option.bind_eq_some] at h3
      obtain ⟨l4, hq1, h4⟩ := h3
      rw [Option.bind_eq_some] at h4
      obtain ⟨l5, hstripV, h5⟩ := h4
      rw [Option.bind_eq_some] at h5
      obtain ⟨l6, hq2, _⟩ := h5
      obtain ⟨preN, hl2, hlowN⟩ := stripPrefixCI_decomp _ _ _ hstripN
      obtain ⟨q1, hl3, hq1set, hq1low⟩ := matchQuote_decomp _ _ hq1
      obtain ⟨preV, hl4, hlowV⟩ := stripPrefixCI_decomp _ _ _ hstripV
      obtain ⟨q2, hl5, hq2set, hq2low⟩ := matchQuote_decomp _ _ hq2
      refine ⟨q1, q2, hq1set, hq2set, ?_⟩
      have hbase : containsSub (lowerList l2)
          ("name=".toList ++ q1 :: (lowerList value ++ [q2])) = true := by
        have hdec : l2 = preN ++ q1 :: (preV ++ q2 :: l6) := by
          rw [hl2, hl3, hl4, hl5]
        rw [hdec]
        have : lowerList (preN ++ q1 :: (preV ++ q2 :: l6)) =
            [] ++ ("name=".toList ++ q1 :: (lowerList value ++ [q2])) ++
              lowerList l6 := by
          simp only [lowerList, List.map_append, List.map_cons,
            List.nil_append, List.append_assoc, List.cons_append]
          rw [show List.map toLowerChar preN = lowerList preN from rfl,
            show List.map toLowerChar preV = lowerList preV from rfl,
            hlowN, hlowV, hq1low, hq2low]
          simp [lowerList]
          decide
        rw [this]
        exact containsSub_of_decomp _ _ _
      have hP_t : containsSub (lowerList t)
          ("name=".toList ++ q1 :: (lowerList value ++ [q2])) = true :=
        containsSub_lower_suffix _ hsuf2 hbase
      have hP_l1 : containsSub (lowerList (c :: t))
          ("name=".toList ++ q1 :: (lowerList value ++ [q2])) = true :=
        containsSub_lower_suffix _ (List.suffix_cons c t) hP_t
      obtain ⟨preM, hl0, _⟩ := stripPrefixCI_decomp _ _ _ hstrip1
      have hP_l0 : containsSub (lowerList l0)
          ("name=".toList ++ q1 :: (lowerList value ++ [q2])) = true := by
        rw [hl0]
        simp only [lowerList, List.map_append]
        exact containsSub_append_left _ _ _ hP_l1
      exact containsSub_lower_suffix _ hsuf0 hP_l0

/-! ## Claim theorem C7 (corrected) -/

/-- Counterexample to C7 as stated: a page whose only description-bearing
tag is `og:description` yields no description from the http driver's
extraction, while the spec's described behaviour (fall back to
`og:description`) yields one. -/
theorem http_description_counterexample :
    extractDescription
      "<html><head><meta property=\"og:description\" content=\"OG text\"></head></html>" =
      none ∧
    (specExtractDescription
      "<html><head><meta property=\"og:description\" content=\"OG text\"></head></html>").isSome =
      true := by
  decide

/-- Claim C7 (amended): the http driver's metadata extraction takes the
description solely from the `name="description"` meta pattern — a
document containing no `name=` quote `description` quote text
(case-insensitively, under any quote combination) produces no
description; in particular there is no `og:description` fallback in this
driver (only the full-render driver's in-page extraction has one). -/
theorem http_description_no_fallback (html : String)
    (h1 : containsSub (lowerList html.toList)
      ("name=".toList ++ '"' :: ("description".toList ++ ['"'])) = false)
    (h2 : containsSub (lowerList html.toList)
      ("name=".toList ++ '"' :: ("description".toList ++ [squote])) = false)
    (h3 : containsSub (lowerList html.toList)
      ("name=".toList ++ squote :: ("description".toList ++ ['"'])) = false)
    (h4 : containsSub (lowerList html.toList)
      ("name=".toList ++ squote :: ("description".toList ++ [squote])) = false) :
    extractDescription html = none := by
  cases hm : metaNameContentFind "description".toList html.toList with
  | none =>
    unfold extractDescription
    rw [hm]
    rfl
  | some cap =>
    obtain ⟨q1, q2, hq1, hq2, hcont⟩ := metaNameContentFind_infix _ _ _ hm
    rw [show lowerList "description".toList = "description".toList from
      by decide] at hcont
    rcases hq1 with rfl | rfl <;> rcases hq2 with rfl | rfl
    · exact Bool.noConfusion (h1.symm.trans hcont)
    · exact Bool.noConfusion (h2.symm.trans hcont)
    · exact Bool.noConfusion (h3.symm.trans hcont)
    · exact Bool.noConfusion (h4.symm.trans hcont)

/-- Witness for the amended C7: a document carrying only an
`og:description` tag extracts no description. -/
theorem http_description_no_fallback_witness :
    extractDescription
      "<head><meta property=\"og:description\" content=\"x\"></head>" =
      none :=
  http_description_no_fallback
    "<head><meta property=\"og:description\" content=\"x\"></head>"
    (by decide) (by decide) (by decide) (by decide)

/-! ## Character arithmetic lemmas (for C8) -/

/-- Characters with equal code points are equal. -/
theorem char_eq_of_toNat_eq {x y : Char} (h : x.toNat = y.toNat) : x = y := by
  apply Char.ext
  cases hx : x.val
  cases hy : y.val
  rw [Char.toNat, Char.toNat, hx, hy] at h
  congr 1
  exact BitVec.eq_of_toNat_eq h

/-- The character order is the code-point order. -/
theorem char_le_iff_toNat {c d : Char} : c ≤ d ↔ c.toNat ≤ d.toNat := by
  rw [Char.le_def]
  rfl

/-- `Char.ofNat` round-trips below the surrogate range. -/
theorem ofNat_toNat_below {n : Nat} (h : n < 55296) :
    (Char.ofNat n).toNat = n := by
  unfold Char.ofNat Char.toNat
  split
  · rfl
  · rename_i hv
    exact absurd (Or.inl h) hv

/-- The code point of `toLowerChar`. -/
theorem toLowerChar_toNat (c : Char) :
    (toLowerChar c).toNat =
      if 'A' ≤ c ∧ c ≤ 'Z' then c.toNat + 32 else c.toNat := by
  unfold toLowerChar
  split
  · rename_i h
    have hz : c.toNat ≤ 90 := by
      have h2 := char_le_iff_toNat.mp h.2
      have : Char.toNat 'Z' = 90 := rfl
      omega
    exact ofNat_toNat_below (by omega)
  · rfl

/-- Lower-casing is idempotent. -/
theorem toLowerChar_idem (c : Char) :
    toLowerChar (toLowerChar c) = toLowerChar c := by
  apply char_eq_of_toNat_eq
  rw [toLowerChar_toNat (toLowerChar c)]
  by_cases h : 'A' ≤ c ∧ c ≤ 'Z'
  · have h1 : (toLowerChar c).toNat = c.toNat + 32 := by
      rw [toLowerChar_toNat, if_pos h]
    have hA : 65 ≤ c.toNat := by
      have h2 := char_le_iff_toNat.mp h.1
      have : Char.toNat 'A' = 65 := rfl
      omega
    rw [if_neg]
    intro hcon
    have h2 := char_le_iff_toNat.mp hcon.2
    have : Char.toNat 'Z' = 90 := rfl
    omega
  · have h1 : (toLowerChar c).toNat = c.toNat := by
      rw [toLowerChar_toNat, if_neg h]
    rw [if_neg]
    intro hcon
    apply h
    constructor
    · have h2 := char_le_iff_toNat.mp hcon.1
      rw [h1] at h2
      exact char_le_iff_toNat.mpr h2
    · have h2 := char_le_iff_toNat.mp hcon.2
      rw [h1] at h2
      exact char_le_iff_toNat.mpr h2

/-- Lower-casing a list twice is lower-casing it once. -/
theorem lowerList_idem (l : List Char) :
    lowerList (lowerList l) = lowerList l := by
  simp only [lowerList, List.map_map]
  exact List.map_congr_left fun c _ => toLowerChar_idem c

/-- `toLowerChar` only reaches `:` from `:` itself. -/
theorem toLowerChar_colon {c : Char} (h : toLowerChar c = ':') : c = ':' := by
  by_cases hc : 'A' ≤ c ∧ c ≤ 'Z'
  · exfalso
    have h1 : (toLowerChar c).toNat = c.toNat + 32 := by
      rw [toLowerChar_toNat, if_pos hc]
    rw [h] at h1
    have hA : 65 ≤ c.toNat := by
      have h2 := char_le_iff_toNat.mp hc.1
      have : Char.toNat 'A' = 65 := rfl
      omega
    have : Char.toNat ':' = 58 := rfl
    omega
  · have h1 : toLowerChar c = c := by
      apply char_eq_of_toNat_eq
      rw [toLowerChar_toNat, if_neg hc]
    rwa [h1] at h

/-! ## takeWhile / dropWhile helpers (for C8) -/

/-- `takeWhile` and `dropWhile` split an append at the first stopping
character. -/
theorem takeWhile_dropWhile_append (p : Char → Bool) :
    ∀ (a b : List Char), (∀ c ∈ a, p c = true) →
      (∀ c t, b = c :: t → p c = false) →
      (a ++ b).takeWhile p = a ∧ (a ++ b).dropWhile p = b := by
  intro a
  induction a with
  | nil =>
    intro b _ hb
    cases b with
    | nil => simp
    | cons c t =>
      have := hb c t rfl
      simp [List.takeWhile_cons, List.dropWhile_cons, this]
  | cons x a2 ih =>
    intro b hx hb
    have hpx : p x = true := hx x (by simp)
    have hrec := ih b (fun c hc => hx c (by simp [hc])) hb
    simp [List.takeWhile_cons, List.dropWhile_cons, hpx, hrec.1, hrec.2]

/-- The head of a `dropWhile` residue fails the predicate. -/
theorem dropWhile_head_false (p : Char → Bool) :
    ∀ (l : List Char) (c : Char) (t : List Char),
      l.dropWhile p = c :: t → p c = false := by
  intro l
  induction l with
  | nil =>
    intro c t h
    simp at h
  | cons x xs ih =>
    intro c t h
    rw [List.dropWhile_cons] at h
    split at h
    · exact ih c t h
    · rename_i hpx
      injection h with h1 _
      subst h1
      simpa using hpx

/-- A non-empty `takeWhile` starts at the head of the input, which
satisfies the predicate. -/
theorem takeWhile_cons_inv (p : Char → Bool) (l : List Char) (c : Char)
    (rest : List Char) (h : l.takeWhile p = c :: rest) :
    ∃ t, l = c :: t ∧ p c = true := by
  cases l with
  | nil => simp at h
  | cons x xs =>
    rw [List.takeWhile_cons] at h
    split at h
    · rename_i hpx
      injection h with h1 _
      subst h1
      exact ⟨xs, rfl, hpx⟩
    · simp at h

/-! ## URL wellformedness (for C8) -/

/-- The invariants every `parseUrl` image satisfies, and exactly what
`serializeUrl` needs for the parse round-trip. -/
structure UrlWF (u : UrlParts) : Prop where
  scheme_ne : u.scheme ≠ []
  scheme_no_colon : ∀ c ∈ u.scheme, ¬(c = ':')
  scheme_lower : lowerList u.scheme = u.scheme
  auth_ne : u.authority ≠ []
  auth_ok : ∀ c ∈ u.authority, ¬(c = '/') ∧ ¬(c = '?') ∧ ¬(c = '#')
  path_head : ∃ t, u.pathname = '/' :: t
  path_ok : ∀ c ∈ u.pathname, ¬(c = '?') ∧ ¬(c = '#')
  search_ok : ∀ q, u.search = some q → ∀ c ∈ q, ¬(c = '#')

/-- Scheme characters coming out of the parser contain no colon. -/
theorem lower_takeWhile_no_colon (l : List Char) (c : Char)
    (hc : c ∈ lowerList (l.takeWhile fun c2 => !(decide (c2 = ':')))) :
    ¬(c = ':') := by
  simp only [lowerList, List.mem_map] at hc
  obtain ⟨c2, hc2, hlow⟩ := hc
  have hpred := List.mem_takeWhile_imp hc2
  intro hcol
  subst hcol
  have : c2 = ':' := toLowerChar_colon hlow
  subst this
  simp at hpred

/-- Every parsed URL is wellformed. -/
theorem parseUrl_wf (l : List Char) (u : UrlParts)
    (h : parseUrl l = some u) : UrlWF u := by
  unfold parseUrl at h
  simp only [spanNot] at h
  split at h
  · split at h
    · simp at h
    · rename_i hs1
      split at h
      · simp at h
      · rename_i ha1
        have hauth_ok : ∀ (r2 : List Char), ∀ c ∈ (r2.takeWhile fun c2 =>
            !(decide (c2 = '/') || decide (c2 = '?') || decide (c2 = '#'))),
            ¬(c = '/') ∧ ¬(c = '?') ∧ ¬(c = '#') := by
          intro r2 c hc
          have hpred := List.mem_takeWhile_imp hc
          simp at hpred
          exact ⟨hpred.1.1, hpred.1.2, hpred.2⟩
        have hpath : ∀ (r2 : List Char) (pn : List Char),
            (if (List.takeWhile (fun c2 => !(decide (c2 = '?') ||
                decide (c2 = '#')))
              (r2.dropWhile fun c2 => !(decide (c2 = '/') ||
                decide (c2 = '?') || decide (c2 = '#')))) = [] then ['/']
            else (List.takeWhile (fun c2 => !(decide (c2 = '?') ||
                decide (c2 = '#')))
              (r2.dropWhile fun c2 => !(decide (c2 = '/') ||
                decide (c2 = '?') || decide (c2 = '#'))))) = pn →
            (∃ t, pn = '/' :: t) ∧
              ∀ c ∈ pn, ¬(c = '?') ∧ ¬(c = '#') := by
          intro r2 pn hpn
          split at hpn
          · subst hpn
            exact ⟨⟨[], rfl⟩, by intro c hc; simp at hc; subst hc; simp⟩
          · rename_i hne
            obtain ⟨c0, rest, hcons⟩ := List.exists_cons_of_ne_nil hne
            obtain ⟨t2, hdrop, hpred0⟩ :=
              takeWhile_cons_inv _ _ _ _ hcons
            have hstop := dropWhile_head_false _ r2 c0 t2 hdrop
            have hc0 : c0 = '/' := by
              simp at hstop hpred0
              by_cases h1 : c0 = '/'
              · exact h1
              · by_cases h2 : c0 = '?'
                · exact absurd h2 hpred0.1
                · exact absurd (hstop h1 h2) hpred0.2
            subst hpn
            refine ⟨⟨rest, by rw [hcons, hc0]⟩, ?_⟩
            intro c hc
            have hpred := List.mem_takeWhile_imp hc
            simp at hpred
            exact hpred
        have hqok : ∀ (r5 q : List Char),
            (some (List.takeWhile (fun c2 => !(decide (c2 = '#'))) r5) :
              Option (List Char)) = some q →
            ∀ c ∈ q, ¬(c = '#') := by
          intro r5 q hq c hc
          rw [Option.some.injEq] at hq
          subst hq
          have hpred := List.mem_takeWhile_imp hc
          simpa using hpred
        split at h
        · rw [Option.some.injEq] at h
          subst h
          exact ⟨by simpa [lowerList] using hs1,
            lower_takeWhile_no_colon l, lowerList_idem _, ha1, hauth_ok _,
            (hpath _ _ rfl).1, (hpath _ _ rfl).2,
            by intro q hq; simp at hq⟩
        · split at h
          · split at h
            · rw [Option.some.injEq] at h
              subst h
              exact ⟨by simpa [lowerList] using hs1,
                lower_takeWhile_no_colon l, lowerList_idem _, ha1,
                hauth_ok _, (hpath _ _ rfl).1, (hpath _ _ rfl).2,
                fun q hq => hqok _ q hq⟩
            · rw [Option.some.injEq] at h
              subst h
              exact ⟨by simpa [lowerList] using hs1,
                lower_takeWhile_no_colon l, lowerList_idem _, ha1,
                hauth_ok _, (hpath _ _ rfl).1, (hpath _ _ rfl).2,
                fun q hq => hqok _ q hq⟩
          · split at h
            · rw [Option.some.injEq] at h
              subst h
              exact ⟨by simpa [lowerList] using hs1,
                lower_takeWhile_no_colon l, lowerList_idem _, ha1,
                hauth_ok _, (hpath _ _ rfl).1, (hpath _ _ rfl).2,
                by intro q hq; simp at hq⟩
            · rw [Option.some.injEq] at h
              subst h
              exact ⟨by simpa [lowerList] using hs1,
                lower_takeWhile_no_colon l, lowerList_idem _, ha1,
                hauth_ok _, (hpath _ _ rfl).1, (hpath _ _ rfl).2,
                by intro q hq; simp at hq⟩
  · simp at h


/-- Serializing a wellformed `UrlParts` and parsing it back recovers it. -/
theorem serializeUrl_parse (u : UrlParts) (hwf : UrlWF u) :
    parseUrl (serializeUrl u) = some u := by
  obtain ⟨sch, auth, path, search, frag⟩ := u
  obtain ⟨hsne, hscol, hslow, hane, haok, ⟨pt, hpt⟩, hpok, hsok⟩ := hwf
  simp only at hsne hscol hslow hane haok hpok hsok hpt
  subst hpt
  have hpa : ∀ c ∈ sch, (fun c2 => !(decide (c2 = ':'))) c = true := by
    intro c hc
    simpa using hscol c hc
  have hqa : ∀ c ∈ auth,
      (fun c2 => !(decide (c2 = '/') || decide (c2 = '?') ||
        decide (c2 = '#'))) c = true := by
    intro c hc
    have := haok c hc
    simp [this.1, this.2.1, this.2.2]
  have hpta : ∀ c ∈ '/' :: pt,
      (fun c2 => !(decide (c2 = '?') || decide (c2 = '#'))) c = true := by
    intro c hc
    have := hpok c hc
    simp [this.1, this.2]
  cases search with
  | none =>
    cases frag with
    | none =>
      unfold serializeUrl parseUrl
      simp only [spanNot, List.append_assoc, List.cons_append,
        List.append_nil]
      have h1 := takeWhile_dropWhile_append
        (fun c2 => !(decide (c2 = ':'))) sch
        (':' :: '/' :: '/' :: (auth ++ '/' :: pt)) hpa
        (by intro c t hct; injection hct with hx _; subst hx; simp)
      rw [h1.1, h1.2]
      simp only [List.take_succ_cons, List.take_zero, List.drop_succ_cons,
        List.drop_zero]
      rw [if_pos trivial, if_neg hsne]
      have h2 := takeWhile_dropWhile_append
        (fun c2 => !(decide (c2 = '/') || decide (c2 = '?') ||
          decide (c2 = '#'))) auth ('/' :: pt) hqa
        (by intro c t hct; injection hct with hx _; subst hx; simp)
      rw [h2.1, h2.2, if_neg hane]
      have h3 := takeWhile_dropWhile_append
        (fun c2 => !(decide (c2 = '?') || decide (c2 = '#')))
        ('/' :: pt) [] hpta (by intro c t hct; simp at hct)
      simp only [List.cons_append, List.append_nil] at h3
      rw [h3.1, h3.2, if_pos rfl, if_neg (by simp), hslow]
    | some f =>
      unfold serializeUrl parseUrl
      simp only [spanNot, List.append_assoc, List.cons_append,
        List.append_nil]
      have h1 := takeWhile_dropWhile_append
        (fun c2 => !(decide (c2 = ':'))) sch
        (':' :: '/' :: '/' :: (auth ++ '/' :: (pt ++ '#' :: f))) hpa
        (by intro c t hct; injection hct with hx _; subst hx; simp)
      rw [h1.1, h1.2]
      simp only [List.take_succ_cons, List.take_zero, List.drop_succ_cons,
        List.drop_zero]
      rw [if_pos trivial, if_neg hsne]
      have h2 := takeWhile_dropWhile_append
        (fun c2 => !(decide (c2 = '/') || decide (c2 = '?') ||
          decide (c2 = '#'))) auth ('/' :: (pt ++ '#' :: f)) hqa
        (by intro c t hct; injection hct with hx _; subst hx; simp)
      rw [h2.1, h2.2, if_neg hane]
      have h3 := takeWhile_dropWhile_append
        (fun c2 => !(decide (c2 = '?') || decide (c2 = '#')))
        ('/' :: pt) ('#' :: f) hpta
        (by intro c t hct; injection hct with hx _; subst hx; simp)
      simp only [List.cons_append] at h3
      rw [h3.1, h3.2, if_neg (by simp)]
      simp only [List.head?_cons, List.tail_cons]
      rw [if_neg (by decide), if_pos trivial, if_neg (by simp), hslow]
  | some q =>
    have hqok : ∀ c ∈ q, (fun c2 => !(decide (c2 = '#'))) c = true := by
      intro c hc
      simpa using hsok q rfl c hc
    cases frag with
    | none =>
      unfold serializeUrl parseUrl
      simp only [spanNot, List.append_assoc, List.cons_append,
        List.append_nil]
      have h1 := takeWhile_dropWhile_append
        (fun c2 => !(decide (c2 = ':'))) sch
        (':' :: '/' :: '/' :: (auth ++ '/' :: (pt ++ '?' :: q))) hpa
        (by intro c t hct; injection hct with hx _; subst hx; simp)
      rw [h1.1, h1.2]
      simp only [List.take_succ_cons, List.take_zero, List.drop_succ_cons,
        List.drop_zero]
      rw [if_pos trivial, if_neg hsne]
      have h2 := takeWhile_dropWhile_append
        (fun c2 => !(decide (c2 = '/') || decide (c2 = '?') ||
          decide (c2 = '#'))) auth ('/' :: (pt ++ '?' :: q)) hqa
        (by intro c t hct; injection hct with hx _; subst hx; simp)
      rw [h2.1, h2.2, if_neg hane]
      have h3 := takeWhile_dropWhile_append
        (fun c2 => !(decide (c2 = '?') || decide (c2 = '#')))
        ('/' :: pt) ('?' :: q) hpta
        (by intro c t hct; injection hct with hx _; subst hx; simp)
      simp only [List.cons_append] at h3
      rw [h3.1, h3.2, if_neg (by simp)]
      simp only [List.head?_cons, List.tail_cons]
      rw [if_pos trivial]
      have h4 := takeWhile_dropWhile_append
        (fun c2 => !(decide (c2 = '#'))) q [] hqok
        (by intro c t hct; simp at hct)
      simp only [List.append_nil] at h4
      rw [h4.1, h4.2]
      rw [if_neg (by simp), if_neg (by simp), hslow]
    | some f =>
      unfold serializeUrl parseUrl
      simp only [spanNot, List.append_assoc, List.cons_append,
        List.append_nil]
      have h1 := takeWhile_dropWhile_append
        (fun c2 => !(decide (c2 = ':'))) sch
        (':' :: '/' :: '/' ::
          (auth ++ '/' :: (pt ++ '?' :: (q ++ '#' :: f)))) hpa
        (by intro c t hct; injection hct with hx _; subst hx; simp)
      rw [h1.1, h1.2]
      simp only [List.take_succ_cons, List.take_zero, List.drop_succ_cons,
        List.drop_zero]
      rw [if_pos trivial, if_neg hsne]
      have h2 := takeWhile_dropWhile_append
        (fun c2 => !(decide (c2 = '/') || decide (c2 = '?') ||
          decide (c2 = '#'))) auth
        ('/' :: (pt ++ '?' :: (q ++ '#' :: f))) hqa
        (by intro c t hct; injection hct with hx _; subst hx; simp)
      rw [h2.1, h2.2, if_neg hane]
      have h3 := takeWhile_dropWhile_append
        (fun c2 => !(decide (c2 = '?') || decide (c2 = '#')))
        ('/' :: pt) ('?' :: (q ++ '#' :: f)) hpta
        (by intro c t hct; injection hct with hx _; subst hx; simp)
      simp only [List.cons_append] at h3
      rw [h3.1, h3.2, if_neg (by simp)]
      simp only [List.head?_cons, List.tail_cons]
      rw [if_pos trivial]
      have h4 := takeWhile_dropWhile_append
        (fun c2 => !(decide (c2 = '#'))) q ('#' :: f) hqok
        (by intro c t hct; injection hct with hx _; subst hx; simp)
      rw [h4.1, h4.2]
      simp only [List.head?_cons, List.tail_cons]
      rw [if_pos trivial, if_neg (by simp), hslow]

/-! ## Canonicalization preservation and idempotence lemmas (for C8) -/

/-- The strip-trailing-slash branch of `trimPathname`. -/
theorem trimPathname_eq_strip (p : List Char) (h1 : p ≠ ['/'])
    (h2 : (p.reverse.dropWhile fun c => c = '/').reverse ≠ []) :
    trimPathname p = (p.reverse.dropWhile fun c => c = '/').reverse := by
  simp only [trimPathname]
  rw [if_neg h1, if_neg h2]

/-- The all-slashes branch of `trimPathname`. -/
theorem trimPathname_eq_slash (p : List Char) (h1 : p ≠ ['/'])
    (h2 : (p.reverse.dropWhile fun c => c = '/').reverse = []) :
    trimPathname p = ['/'] := by
  simp only [trimPathname]
  rw [if_neg h1, if_pos h2]

/-- `trimPathname` is idempotent. -/
theorem trimPathname_idem (p : List Char) :
    trimPathname (trimPathname p) = trimPathname p := by
  by_cases h1 : p = ['/']
  · subst h1
    rfl
  · by_cases h2 : (p.reverse.dropWhile fun c => c = '/').reverse = []
    · rw [trimPathname_eq_slash p h1 h2]
      rfl
    · rw [trimPathname_eq_strip p h1 h2]
      by_cases h3 : (p.reverse.dropWhile fun c => c = '/').reverse = ['/']
      · rw [h3]
        rfl
      · have hid : (p.reverse.dropWhile fun c => c = '/').dropWhile
            (fun c => c = '/') = p.reverse.dropWhile fun c => c = '/' := by
          cases hd : p.reverse.dropWhile (fun c => c = '/') with
          | nil => rfl
          | cons c t2 =>
            have hf := dropWhile_head_false _ _ _ _ hd
            simp [List.dropWhile_cons, hf]
        rw [trimPathname_eq_strip _ h3
          (by rw [List.reverse_reverse, hid]; exact h2)]
        rw [List.reverse_reverse, hid]

/-- `trimPathname` keeps the leading slash. -/
theorem trimPathname_head (p : List Char) (h : ∃ t, p = '/' :: t) :
    ∃ t2, trimPathname p = '/' :: t2 := by
  obtain ⟨t, hpt⟩ := h
  by_cases h1 : p = ['/']
  · exact ⟨[], by rw [h1]; rfl⟩
  · by_cases h2 : (p.reverse.dropWhile fun c => c = '/').reverse = []
    · exact ⟨[], by rw [trimPathname_eq_slash p h1 h2]⟩
    · obtain ⟨c, t2, hct⟩ := List.exists_cons_of_ne_nil h2
      have hsplit : (p.reverse.dropWhile fun c => c = '/').reverse ++
          (p.reverse.takeWhile fun c => c = '/').reverse = p := by
        rw [← List.reverse_append, List.takeWhile_append_dropWhile,
          List.reverse_reverse]
      refine ⟨t2, ?_⟩
      rw [trimPathname_eq_strip p h1 h2, hct]
      rw [hct, hpt] at hsplit
      simp only [List.cons_append] at hsplit
      injection hsplit with hc _
      rw [hc]

/-- Characters of the trimmed path come from the path (or are slashes). -/
theorem trimPathname_mem (p : List Char) (c : Char)
    (hc : c ∈ trimPathname p) : c ∈ p ∨ c = '/' := by
  by_cases h1 : p = ['/']
  · have he : trimPathname ['/'] = ['/'] := rfl
    rw [h1, he] at hc
    right
    simpa using hc
  · by_cases h2 : (p.reverse.dropWhile fun c => c = '/').reverse = []
    · rw [trimPathname_eq_slash p h1 h2] at hc
      right
      simpa using hc
    · rw [trimPathname_eq_strip p h1 h2] at hc
      rw [List.mem_reverse] at hc
      left
      rw [← List.mem_reverse]
      exact List.Sublist.subset (List.dropWhile_sublist _) hc

/-- `splitOnChar` always yields at least one segment. -/
theorem splitOnChar_ne_nil (sep : Char) (l : List Char) :
    splitOnChar sep l ≠ [] := by
  cases l with
  | nil => simp [splitOnChar]
  | cons c t =>
    simp only [splitOnChar]
    split
    · simp
    · simp

/-- Splitting a separator-free list yields the single segment. -/
theorem splitOnChar_no_sep (sep : Char) (l : List Char)
    (h : sep ∉ l) : splitOnChar sep l = [l] := by
  induction l with
  | nil => rfl
  | cons c t ih =>
    simp only [List.mem_cons, not_or] at h
    simp only [splitOnChar]
    rw [if_neg (fun hc => h.1 hc.symm), ih h.2]
    simp only [List.headD_cons, List.tail_cons]

/-- Splitting at the first separator peels off the leading segment. -/
theorem splitOnChar_append_sep (sep : Char) (a b : List Char)
    (ha : sep ∉ a) :
    splitOnChar sep (a ++ sep :: b) = a :: splitOnChar sep b := by
  induction a with
  | nil =>
    simp only [List.nil_append, splitOnChar]
    rw [if_pos trivial]
  | cons c t ih =>
    simp only [List.mem_cons, not_or] at ha
    simp only [List.cons_append, splitOnChar, List.append_eq]
    rw [if_neg (fun hc => ha.1 hc.symm), ih ha.2]
    simp only [List.headD_cons, List.tail_cons]

/-- Segment characters come from the split input. -/
theorem splitOnChar_mem_subset (sep : Char) :
    ∀ (l seg : List Char), seg ∈ splitOnChar sep l → ∀ c ∈ seg, c ∈ l := by
  intro l
  induction l with
  | nil =>
    intro seg hseg c hc
    simp only [splitOnChar, List.mem_singleton] at hseg
    subst hseg
    simp at hc
  | cons x t ih =>
    intro seg hseg c hc
    simp only [splitOnChar] at hseg
    obtain ⟨h0, t0, hsplit⟩ :=
      List.exists_cons_of_ne_nil (splitOnChar_ne_nil sep t)
    by_cases hx : x = sep
    · rw [if_pos hx] at hseg
      rcases List.mem_cons.1 hseg with h | h
      · subst h
        simp at hc
      · exact List.mem_cons_of_mem _ (ih seg h c hc)
    · rw [if_neg hx, hsplit] at hseg
      simp only [List.headD_cons, List.tail_cons] at hseg
      rcases List.mem_cons.1 hseg with h | h
      · subst h
        rcases List.mem_cons.1 hc with h2 | h2
        · subst h2
          exact List.mem_cons_self _ _
        · have hmem : c ∈ t := ih h0
            (by rw [hsplit]; exact List.mem_cons_self _ _) c h2
          exact List.mem_cons_of_mem _ hmem
      · have hseg2 : seg ∈ splitOnChar sep t := by
          rw [hsplit]
          exact List.mem_cons_of_mem _ h
        exact List.mem_cons_of_mem _ (ih seg hseg2 c hc)

/-- Segments contain no separator. -/
theorem splitOnChar_mem_no_sep (sep : Char) :
    ∀ (l seg : List Char), seg ∈ splitOnChar sep l → sep ∉ seg := by
  intro l
  induction l with
  | nil =>
    intro seg hseg
    simp only [splitOnChar, List.mem_singleton] at hseg
    subst hseg
    simp
  | cons x t ih =>
    intro seg hseg
    simp only [splitOnChar] at hseg
    obtain ⟨h0, t0, hsplit⟩ :=
      List.exists_cons_of_ne_nil (splitOnChar_ne_nil sep t)
    by_cases hx : x = sep
    · rw [if_pos hx] at hseg
      rcases List.mem_cons.1 hseg with h | h
      · subst h
        simp
      · exact ih seg h
    · rw [if_neg hx, hsplit] at hseg
      simp only [List.headD_cons, List.tail_cons] at hseg
      rcases List.mem_cons.1 hseg with h | h
      · subst h
        intro hmem
        rcases List.mem_cons.1 hmem with h2 | h2
        · exact hx h2.symm
        · exact ih h0
            (by rw [hsplit]; exact List.mem_cons_self _ _) h2
      · exact ih seg (by rw [hsplit]; exact List.mem_cons_of_mem _ h)

/-- Keys and values parsed from a query satisfy the pair invariants:
no ampersand in key or value, no equals sign in the key. -/
theorem parsePairs_wf (q : List Char) (kv : List Char × List Char)
    (h : kv ∈ parsePairs q) :
    ('&' ∉ kv.1) ∧ ('=' ∉ kv.1) ∧ ('&' ∉ kv.2) := by
  simp only [parsePairs, List.mem_filterMap] at h
  obtain ⟨seg, hseg, hkv⟩ := h
  have hnosep := splitOnChar_mem_no_sep '&' q seg hseg
  simp only [pairOfSeg, spanNot] at hkv
  by_cases hne : seg = []
  · rw [if_pos hne] at hkv
    simp at hkv
  · rw [if_neg hne] at hkv
    rw [Option.some.injEq] at hkv
    subst hkv
    refine ⟨?_, ?_, ?_⟩
    · intro hmem
      exact hnosep (List.Sublist.subset (List.takeWhile_sublist _) hmem)
    · intro hmem
      have hpred := List.mem_takeWhile_imp hmem
      simp at hpred
    · intro hmem
      split at hmem
      · exact hnosep (List.Sublist.subset
          ((List.tail_sublist _).trans (List.dropWhile_sublist _)) hmem)
      · simp at hmem

/-- All parsed key and value characters come from the query. -/
theorem parsePairs_chars (q : List Char) (kv : List Char × List Char)
    (h : kv ∈ parsePairs q) :
    (∀ c ∈ kv.1, c ∈ q) ∧ (∀ c ∈ kv.2, c ∈ q) := by
  simp only [parsePairs, List.mem_filterMap] at h
  obtain ⟨seg, hseg, hkv⟩ := h
  have hsub := splitOnChar_mem_subset '&' q seg hseg
  simp only [pairOfSeg, spanNot] at hkv
  by_cases hne : seg = []
  · rw [if_pos hne] at hkv
    simp at hkv
  · rw [if_neg hne] at hkv
    rw [Option.some.injEq] at hkv
    subst hkv
    constructor
    · intro c hc
      exact hsub c (List.Sublist.subset (List.takeWhile_sublist _) hc)
    · intro c hc
      split at hc
      · exact hsub c (List.Sublist.subset
          ((List.tail_sublist _).trans (List.dropWhile_sublist _)) hc)
      · simp at hc

/-- Parsing a single wellformed `key=value` segment. -/
theorem pairOfSeg_eq (k v : List Char) (hke : '=' ∉ k) :
    pairOfSeg (k ++ '=' :: v) = some (k, v) := by
  have hspan := takeWhile_dropWhile_append
    (fun c => !(decide (c = '='))) k ('=' :: v)
    (by intro c hc; simpa using fun (he : c = '=') => hke (he ▸ hc))
    (by intro c t hct; injection hct with hx _; subst hx; simp)
  simp only [pairOfSeg, spanNot]
  rw [if_neg (by simp)]
  rw [hspan.1, hspan.2]
  simp only [List.head?_cons, List.tail_cons]
  rw [if_pos trivial]

/-- Key comparison is total. -/
theorem keyLe_total : ∀ (a b : List Char),
    keyLe a b = true ∨ keyLe b a = true := by
  intro a
  induction a with
  | nil =>
    intro b
    left
    rfl
  | cons x xs ih =>
    intro b
    cases b with
    | nil =>
      right
      rfl
    | cons y ys =>
      rcases Nat.lt_trichotomy x.toNat y.toNat with hlt | heq | hgt
      · left
        simp [keyLe, hlt]
      · have hxy : x = y := char_eq_of_toNat_eq heq
        subst hxy
        rcases ih ys with h | h
        · left
          simp [keyLe, h]
        · right
          simp [keyLe, h]
      · right
        simp [keyLe, hgt]

/-- Key comparison is transitive. -/
theorem keyLe_trans : ∀ (a b c : List Char),
    keyLe a b = true → keyLe b c = true → keyLe a c = true := by
  intro a
  induction a with
  | nil =>
    intro b c _ _
    rfl
  | cons x xs ih =>
    intro b c hab hbc
    cases b with
    | nil => simp [keyLe] at hab
    | cons y ys =>
      cases c with
      | nil => simp [keyLe] at hbc
      | cons z zs =>
        simp only [keyLe, Bool.or_eq_true, Bool.and_eq_true,
          decide_eq_true_eq] at hab hbc ⊢
        rcases hab with hlt | ⟨hxy, hrec⟩
        · rcases hbc with hlt2 | ⟨hyz, _⟩
          · exact Or.inl (Nat.lt_trans hlt hlt2)
          · subst hyz
            exact Or.inl hlt
        · subst hxy
          rcases hbc with hlt2 | ⟨hyz, hrec2⟩
          · exact Or.inl hlt2
          · subst hyz
            exact Or.inr ⟨rfl, ih ys zs hrec hrec2⟩

/-- Members of an insertion come from the inserted pair or the list. -/
theorem insertPair_mem (p kv : List Char × List Char) :
    ∀ (l : List (List Char × List Char)), kv ∈ insertPair p l →
      kv = p ∨ kv ∈ l := by
  intro l
  induction l with
  | nil =>
    intro h
    simp only [insertPair, List.mem_singleton] at h
    exact Or.inl h
  | cons q t ih =>
    intro h
    simp only [insertPair] at h
    split at h
    · rcases List.mem_cons.1 h with h2 | h2
      · exact Or.inl h2
      · exact Or.inr h2
    · rcases List.mem_cons.1 h with h2 | h2
      · exact Or.inr (List.mem_cons.2 (Or.inl h2))
      · rcases ih h2 with h3 | h3
        · exact Or.inl h3
        · exact Or.inr (List.mem_cons.2 (Or.inr h3))

/-- Members of the sorted pair list come from the input. -/
theorem sortPairs_mem (kv : List Char × List Char) :
    ∀ (ps : List (List Char × List Char)), kv ∈ sortPairs ps → kv ∈ ps := by
  intro ps
  induction ps with
  | nil =>
    intro h
    simpa [sortPairs] using h
  | cons p t ih =>
    intro h
    have h2 : kv ∈ insertPair p (sortPairs t) := h
    rcases insertPair_mem p kv (sortPairs t) h2 with h3 | h3
    · subst h3
      exact List.mem_cons_self _ _
    · exact List.mem_cons_of_mem _ (ih h3)

/-- The sortedness invariant the pair sort establishes. -/
def PairsSorted (ps : List (List Char × List Char)) : Prop :=
  List.Pairwise (fun a b => keyLe a.1 b.1 = true) ps

/-- Insertion preserves sortedness. -/
theorem insertPair_sorted (p : List Char × List Char) :
    ∀ (l : List (List Char × List Char)), PairsSorted l →
      PairsSorted (insertPair p l) := by
  intro l
  induction l with
  | nil =>
    intro _
    simp [insertPair, PairsSorted]
  | cons q t ih =>
    intro h
    rw [PairsSorted, List.pairwise_cons] at h
    obtain ⟨hq, ht⟩ := h
    simp only [insertPair]
    split
    · rename_i hle
      rw [PairsSorted, List.pairwise_cons]
      refine ⟨?_, List.pairwise_cons.2 ⟨hq, ht⟩⟩
      intro b hb
      rcases List.mem_cons.1 hb with h2 | h2
      · subst h2
        exact hle
      · exact keyLe_trans _ _ _ hle (hq b h2)
    · rename_i hgt
      have hle2 : keyLe q.1 p.1 = true := by
        rcases keyLe_total p.1 q.1 with h2 | h2
        · exact absurd h2 hgt
        · exact h2
      rw [PairsSorted, List.pairwise_cons]
      refine ⟨?_, ih ht⟩
      intro b hb
      rcases insertPair_mem p b t hb with h2 | h2
      · subst h2
        exact hle2
      · exact hq b h2

/-- The pair sort sorts. -/
theorem sortPairs_sorted (ps : List (List Char × List Char)) :
    PairsSorted (sortPairs ps) := by
  induction ps with
  | nil => simp [sortPairs, PairsSorted]
  | cons p t ih => exact insertPair_sorted p (sortPairs t) ih

/-- Inserting below every key prepends. -/
theorem insertPair_of_le (p : List Char × List Char)
    (l : List (List Char × List Char))
    (hl : ∀ b ∈ l, keyLe p.1 b.1 = true) : insertPair p l = p :: l := by
  cases l with
  | nil => rfl
  | cons q t =>
    simp only [insertPair]
    rw [if_pos (hl q (List.mem_cons_self _ _))]

/-- Sorting a sorted pair list is the identity. -/
theorem sortPairs_of_sorted : ∀ (ps : List (List Char × List Char)),
    PairsSorted ps → sortPairs ps = ps := by
  intro ps
  induction ps with
  | nil =>
    intro _
    rfl
  | cons p t ih =>
    intro h
    rw [PairsSorted, List.pairwise_cons] at h
    obtain ⟨hp, ht⟩ := h
    have hfold : sortPairs (p :: t) = insertPair p (sortPairs t) := rfl
    rw [hfold, ih ht, insertPair_of_le p t hp]

/-- The pair sort is idempotent. -/
theorem sortPairs_idem (ps : List (List Char × List Char)) :
    sortPairs (sortPairs ps) = sortPairs ps :=
  sortPairs_of_sorted _ (sortPairs_sorted ps)

/-- Insertion grows the list by one. -/
theorem insertPair_length (p : List Char × List Char) :
    ∀ (l : List (List Char × List Char)),
      (insertPair p l).length = l.length + 1 := by
  intro l
  induction l with
  | nil => rfl
  | cons q t ih =>
    simp only [insertPair]
    split
    · rfl
    · simp [ih]

/-- Sorting preserves length. -/
theorem sortPairs_length (ps : List (List Char × List Char)) :
    (sortPairs ps).length = ps.length := by
  induction ps with
  | nil => rfl
  | cons p t ih =>
    have hfold : sortPairs (p :: t) = insertPair p (sortPairs t) := rfl
    rw [hfold, insertPair_length p (sortPairs t), ih, List.length_cons]

/-- Characters of a serialized pair list: separators or pair characters. -/
theorem serializePairs_chars :
    ∀ (ps : List (List Char × List Char)) (c : Char),
      c ∈ serializePairs ps →
      c = '&' ∨ c = '=' ∨ ∃ kv ∈ ps, c ∈ kv.1 ∨ c ∈ kv.2 := by
  intro ps
  induction ps with
  | nil =>
    intro c hc
    simp [serializePairs] at hc
  | cons kv rest ih =>
    intro c hc
    obtain ⟨k, v⟩ := kv
    cases rest with
    | nil =>
      simp only [serializePairs, List.mem_append, List.mem_cons] at hc
      rcases hc with h | h | h
      · exact Or.inr (Or.inr ⟨(k, v), List.mem_cons_self _ _, Or.inl h⟩)
      · exact Or.inr (Or.inl h)
      · exact Or.inr (Or.inr ⟨(k, v), List.mem_cons_self _ _, Or.inr h⟩)
    | cons kv2 rest2 =>
      simp only [serializePairs, List.mem_append, List.mem_cons] at hc
      rcases hc with (h | (h | h)) | (h | h)
      · exact Or.inr (Or.inr ⟨(k, v), List.mem_cons_self _ _, Or.inl h⟩)
      · exact Or.inr (Or.inl h)
      · exact Or.inr (Or.inr ⟨(k, v), List.mem_cons_self _ _, Or.inr h⟩)
      · exact Or.inl h
      · rcases ih c h with h2 | h2 | ⟨kv3, hkv3, h3⟩
        · exact Or.inl h2
        · exact Or.inr (Or.inl h2)
        · exact Or.inr (Or.inr ⟨kv3, List.mem_cons_of_mem _ hkv3, h3⟩)

/-- Serializing a nonempty pair list is nonempty. -/
theorem serializePairs_ne_nil (ps : List (List Char × List Char))
    (h : ps ≠ []) : serializePairs ps ≠ [] := by
  cases ps with
  | nil => exact absurd rfl h
  | cons kv rest =>
    obtain ⟨k, v⟩ := kv
    cases rest with
    | nil => simp [serializePairs]
    | cons kv2 rest2 => simp [serializePairs]

/-- Serialization inverts parsing on pair lists with the parse
invariants. -/
theorem parse_serializePairs :
    ∀ (ps : List (List Char × List Char)),
      (∀ kv ∈ ps, ('&' ∉ kv.1) ∧ ('=' ∉ kv.1) ∧ ('&' ∉ kv.2)) →
      parsePairs (serializePairs ps) = ps := by
  intro ps
  induction ps with
  | nil =>
    intro _
    rfl
  | cons kv rest ih =>
    intro h
    obtain ⟨k, v⟩ := kv
    obtain ⟨hka, hke, hva⟩ := h (k, v) (List.mem_cons_self _ _)
    have hnosep : '&' ∉ k ++ '=' :: v := by
      intro hmem
      rcases List.mem_append.1 hmem with h2 | h2
      · exact hka h2
      · rcases List.mem_cons.1 h2 with h3 | h3
        · exact absurd h3 (by decide)
        · exact hva h3
    cases rest with
    | nil =>
      simp only [serializePairs]
      unfold parsePairs
      rw [splitOnChar_no_sep '&' (k ++ '=' :: v) hnosep,
        List.filterMap_cons_some (pairOfSeg_eq k v hke),
        List.filterMap_nil]
    | cons kv2 rest2 =>
      simp only [serializePairs]
      have hsplit := splitOnChar_append_sep '&' (k ++ '=' :: v)
        (serializePairs (kv2 :: rest2)) hnosep
      unfold parsePairs
      rw [hsplit, List.filterMap_cons_some (pairOfSeg_eq k v hke)]
      have ih2 := ih (fun kv3 hkv3 => h kv3 (List.mem_cons_of_mem _ hkv3))
      unfold parsePairs at ih2
      rw [ih2]

/-- `sortSearch` only touches the `search` component. -/
theorem sortSearch_parts (u : UrlParts) :
    (sortSearch u).scheme = u.scheme ∧
    (sortSearch u).authority = u.authority ∧
    (sortSearch u).pathname = u.pathname ∧
    (sortSearch u).fragment = u.fragment := by
  obtain ⟨sch, auth, path, search, frag⟩ := u
  cases search with
  | none => exact ⟨rfl, rfl, rfl, rfl⟩
  | some q =>
    simp only [sortSearch]
    split
    · exact ⟨rfl, rfl, rfl, rfl⟩
    · exact ⟨rfl, rfl, rfl, rfl⟩

/-- `sortSearch` preserves URL wellformedness. -/
theorem sortSearch_wf (u : UrlParts) (hwf : UrlWF u) :
    UrlWF (sortSearch u) := by
  obtain ⟨sch, auth, path, search, frag⟩ := u
  obtain ⟨hsne, hscol, hslow, hane, haok, hph, hpok, hsok⟩ := hwf
  cases search with
  | none => exact ⟨hsne, hscol, hslow, hane, haok, hph, hpok, hsok⟩
  | some q =>
    simp only [sortSearch]
    split
    · refine ⟨hsne, hscol, hslow, hane, haok, hph, hpok, ?_⟩
      intro q2 hq2
      split at hq2
      · simp at hq2
      · simp only [Option.some.injEq] at hq2
        subst hq2
        intro c hc hcol
        subst hcol
        rcases serializePairs_chars (sortPairs (parsePairs q)) '#' hc
          with h2 | h2 | ⟨kv, hkv, h3⟩
        · exact absurd h2 (by decide)
        · exact absurd h2 (by decide)
        · have hkv2 := sortPairs_mem kv (parsePairs q) hkv
          have hchars := parsePairs_chars q kv hkv2
          rcases h3 with h4 | h4
          · exact hsok q rfl '#' (hchars.1 '#' h4) rfl
          · exact hsok q rfl '#' (hchars.2 '#' h4) rfl
    · exact ⟨hsne, hscol, hslow, hane, haok, hph, hpok, hsok⟩

/-- The large-query branch of `sortSearch`. -/
theorem sortSearch_some (sch auth path : List Char)
    (frag : Option (List Char)) (q : List Char)
    (hlen : 0 < (parsePairs q).length) :
    sortSearch ⟨sch, auth, path, some q, frag⟩ =
      ⟨sch, auth, path,
        if serializePairs (sortPairs (parsePairs q)) = [] then none
        else some (serializePairs (sortPairs (parsePairs q))), frag⟩ := by
  simp only [sortSearch]
  rw [if_pos hlen]

/-- The empty-query branch of `sortSearch`. -/
theorem sortSearch_some_small (sch auth path : List Char)
    (frag : Option (List Char)) (q : List Char)
    (hlen : ¬0 < (parsePairs q).length) :
    sortSearch ⟨sch, auth, path, some q, frag⟩ =
      ⟨sch, auth, path, some q, frag⟩ := by
  simp only [sortSearch]
  rw [if_neg hlen]

/-- `sortSearch` is idempotent. -/
theorem sortSearch_idem (u : UrlParts) :
    sortSearch (sortSearch u) = sortSearch u := by
  obtain ⟨sch, auth, path, search, frag⟩ := u
  cases search with
  | none => rfl
  | some q =>
    by_cases hlen : 0 < (parsePairs q).length
    · rw [sortSearch_some sch auth path frag q hlen]
      by_cases hsq : serializePairs (sortPairs (parsePairs q)) = []
      · rw [if_pos hsq]
        rfl
      · rw [if_neg hsq]
        have hps : parsePairs (serializePairs (sortPairs (parsePairs q))) =
            sortPairs (parsePairs q) :=
          parse_serializePairs _ fun kv hkv =>
            parsePairs_wf q kv (sortPairs_mem kv (parsePairs q) hkv)
        have hlen2 : 0 < (parsePairs (serializePairs (sortPairs
            (parsePairs q)))).length := by
          rw [hps, sortPairs_length]
          exact hlen
        rw [sortSearch_some sch auth path frag _ hlen2, hps,
          sortPairs_idem, if_neg hsq]
    · rw [sortSearch_some_small sch auth path frag q hlen,
        sortSearch_some_small sch auth path frag q hlen]

/-- `canonParts` preserves URL wellformedness. -/
theorem canonParts_wf (u : UrlParts) (hwf : UrlWF u) :
    UrlWF (canonParts u) := by
  unfold canonParts
  apply sortSearch_wf
  obtain ⟨sch, auth, path, search, frag⟩ := u
  obtain ⟨hsne, hscol, hslow, hane, haok, hph, hpok, hsok⟩ := hwf
  refine ⟨hsne, hscol, hslow, hane, haok, ?_, ?_, ?_⟩
  · exact trimPathname_head path hph
  · intro c hc
    rcases trimPathname_mem path c hc with h | h
    · exact hpok c h
    · subst h
      exact ⟨by decide, by decide⟩
  · exact hsok

/-- `canonParts` does not change the scheme. -/
theorem canonParts_scheme (u : UrlParts) :
    (canonParts u).scheme = u.scheme := by
  unfold canonParts
  exact (sortSearch_parts { u with
    fragment := none,
    pathname := trimPathname u.pathname }).1

/-- `canonParts` is idempotent. -/
theorem canonParts_idem (u : UrlParts) :
    canonParts (canonParts u) = canonParts u := by
  unfold canonParts
  obtain ⟨hsch, hauth, hpath, hfrag⟩ := sortSearch_parts { u with
    fragment := none, pathname := trimPathname u.pathname }
  have hpath2 : (sortSearch { u with
      fragment := none,
      pathname := trimPathname u.pathname }).pathname =
      trimPathname u.pathname := hpath
  have hfrag2 : (sortSearch { u with
      fragment := none,
      pathname := trimPathname u.pathname }).fragment = none := hfrag
  have hgen : ∀ (z : UrlParts), z.pathname = trimPathname u.pathname →
      z.fragment = none →
      ({ z with
         fragment := none,
         pathname := trimPathname z.pathname } : UrlParts) = z := by
    intro z hp hf
    rw [hp, trimPathname_idem, ← hp, ← hf]
  rw [hgen _ hpath2 hfrag2]
  exact sortSearch_idem _

/-- Claim C8: URL canonicalization is idempotent — whenever
`canonicalizeUrl` succeeds, applying it to its own output succeeds and
returns the same string. -/
theorem canonicalizeUrl_idempotent (s r : String)
    (h : canonicalizeUrl s = .ok r) : canonicalizeUrl r = .ok r := by
  unfold canonicalizeUrl at h
  split at h
  · simp at h
  · rename_i u hu
    split at h
    · rename_i hsup
      rw [Except.ok.injEq] at h
      subst h
      have hwf := parseUrl_wf _ _ hu
      have hcwf := canonParts_wf u hwf
      have hparse2 : parseUrl
          (String.toList ⟨serializeUrl (canonParts u)⟩) =
          some (canonParts u) := serializeUrl_parse (canonParts u) hcwf
      unfold canonicalizeUrl
      rw [hparse2]
      show (if SUPPORTED_PROTOCOLS.contains
            ((canonParts u).scheme ++ [':'])
          then (Except.ok ⟨serializeUrl (canonParts (canonParts u))⟩ :
            Except UrlNormalizationIssue String)
          else Except.error UrlNormalizationIssue.unsupported_protocol) =
        Except.ok ⟨serializeUrl (canonParts u)⟩
      rw [if_pos (by rw [canonParts_scheme]; exact hsup)]
      rw [canonParts_idem]
    · simp at h

/-- Witness for C8: a concrete canonicalization output is a fixed point
of `canonicalizeUrl`. -/
theorem canonicalizeUrl_idempotent_witness :
    canonicalizeUrl "https://example.com/a?a=1&b=2" =
      Except.ok "https://example.com/a?a=1&b=2" :=
  canonicalizeUrl_idempotent "https://example.com/a/?b=2&a=1" _ (by decide)

end Micrawl
